import Mathlib

/-!
Verification of the SSHC core (src/core/app.rs, src/config/ssh_config.rs).

Strings are modelled as lists of characters (`Str`); Rust `String` ordering
is byte-lexicographic on UTF-8, which coincides with code-point
lexicographic order, modelled by `strLt`/`strLe`.  Rust's Unicode-aware
`trim`/`to_lowercase` are modelled character-wise (`Char.isWhitespace`,
`Char.toLower`), which agrees with the source on the ASCII inputs the
claims are about.
-/

abbrev Str := List Char

/-- Character-list form of a string literal. -/
def str (s : String) : Str := s.data

/-- Byte-lexicographic strict order on strings, as Rust `Ord for String`. -/
def strLt : Str → Str → Bool
  | _, [] => false
  | [], _ :: _ => true
  | a :: as, b :: bs => decide (a < b) || (decide (a = b) && strLt as bs)

/-- Non-strict order derived from `strLt`; `a ≤ b ↔ ¬ b < a`. -/
def strLe (a b : Str) : Bool := !(strLt b a)

/-- Case-insensitive form: character-wise lowercase, modelling
`str::to_lowercase` from the source. -/
def toLowerStr (s : Str) : Str := s.map Char.toLower

/-- Substring test, modelling Rust `str::contains`. -/
def containsStr : Str → Str → Bool
  | [], n => n.isEmpty
  | c :: t, n => n.isPrefixOf (c :: t) || containsStr t n

/-- SshHost from src/config/ssh_config.rs.  `other_options` (a Rust
`HashMap`) is modelled as an association list in insertion order. -/
structure SshHost where
  name : Str
  hostname : Option Str
  user : Option Str
  port : Option Str
  identity_file : Option Str
  other_options : List (Str × Str)
  folder : Option Str
  display_name : Option Str
  description : Option Str
  visible : Bool
deriving DecidableEq, Repr

namespace SshHost

/-- `SshHost::new` from the source. -/
def new (name : Str) : SshHost :=
  { name := name, hostname := none, user := none, port := none,
    identity_file := none, other_options := [], folder := none,
    display_name := none, description := none, visible := true }

/-- `get_display_name` from the source: the display-name override if set,
else the host name. -/
def get_display_name (h : SshHost) : Str :=
  match h.display_name with
  | some d => d
  | none => h.name

/-- `matches_search` from the source: case-insensitive substring match
OR-ed across name, hostname, user, display_name, description, folder. -/
def matches_search (h : SshHost) (query : Str) : Bool :=
  let q := toLowerStr query
  containsStr (toLowerStr h.name) q ||
  (match h.hostname with | some v => containsStr (toLowerStr v) q | none => false) ||
  (match h.user with | some v => containsStr (toLowerStr v) q | none => false) ||
  (match h.display_name with | some v => containsStr (toLowerStr v) q | none => false) ||
  (match h.description with | some v => containsStr (toLowerStr v) q | none => false) ||
  (match h.folder with | some v => containsStr (toLowerStr v) q | none => false)

end SshHost

/-- TreeItem from src/core/app.rs. -/
inductive TreeItem where
  | folder (name : Str) (expanded : Bool) (children_indices : List Nat)
  | host (host_index : Nat)
deriving DecidableEq, Repr

namespace TreeItem

/-- Index carried by a Host item, none for a Folder item. -/
def hostIdx : TreeItem → Option Nat
  | .host i => some i
  | .folder _ _ _ => none

/-- Name carried by a Folder item, none for a Host item. -/
def folderName : TreeItem → Option Str
  | .folder n _ _ => some n
  | .host _ => none

end TreeItem

/-- Indices of the hosts matching the search query, in list order; the
body of `filter_hosts` in the non-empty-query branch, which iterates
`hosts` with `enumerate` and keeps the matching indices. -/
def filteredIdx (hosts : List SshHost) (q : Str) : List Nat :=
  (List.range hosts.length).filter fun i =>
    match hosts[i]? with
    | some h => h.matches_search q
    | none => false

/-- Members of folder `f` among the visible hosts, in index order; this is
the per-key content of the `folder_groups` HashMap built by
`rebuild_tree` (entries are pushed in index order). -/
def visibleFolderIdx (hosts : List SshHost) (f : Str) : List Nat :=
  (List.range hosts.length).filter fun i =>
    match hosts[i]? with
    | some h => h.visible && decide (h.folder = some f)
    | none => false

/-- Visible hosts with no folder (the `None` group of `rebuild_tree`), in
index order. -/
def rootIdx (hosts : List SshHost) : List Nat :=
  (List.range hosts.length).filter fun i =>
    match hosts[i]? with
    | some h => h.visible && decide (h.folder = none)
    | none => false

/-- Sort key used by `rebuild_tree` and `toggle_folder_expanded`: the
effective display name of the host at an index, empty if out of range
(`unwrap_or_default` in the source). -/
def dispKey (hosts : List SshHost) (i : Nat) : Str :=
  match hosts[i]? with
  | some h => h.get_display_name
  | none => []

/-- Comparison used to sort member indices by effective display name. -/
def dispLe (hosts : List SshHost) (a b : Nat) : Bool :=
  strLe (dispKey hosts a) (dispKey hosts b)

/-- Insertion of one element into a sorted list, keeping it after
strictly-smaller elements and before greater-or-tied ones. -/
def insertSorted {α : Type _} (le : α → α → Bool) (x : α) : List α → List α
  | [] => [x]
  | y :: t => if le x y then x :: y :: t else y :: insertSorted le x t

/-- Stable insertion sort.  Rust `sort`/`sort_by` are stable sorts, and
the stably-sorted permutation of a list is unique, so this models them
exactly (a structurally recursive definition is used so that concrete
trees evaluate). -/
def stableSort {α : Type _} (le : α → α → Bool) : List α → List α
  | [] => []
  | x :: t => insertSorted le x (stableSort le t)

/-- The `host_indices.sort_by(display-name cmp)` step of the source. -/
def sortMembers (hosts : List SshHost) (l : List Nat) : List Nat :=
  stableSort (dispLe hosts) l

/-- Folder names of the visible hosts, deduplicated and sorted: the
`folder_groups.keys()` of the source (a HashMap key set — dedup order is
irrelevant because the list is sorted right after) followed by
`folder_names.sort()`. -/
def folderNames (hosts : List SshHost) : List Str :=
  stableSort strLe ((hosts.filter (·.visible)).filterMap (·.folder)).dedup

/-- `rebuild_tree` from the source: one Folder item per folder name in
sorted order, each followed by its member Host items sorted by display
name (the folder is created with `expanded: true` and its children are
always emitted), then the root hosts sorted the same way. -/
def rebuild_tree (hosts : List SshHost) : List TreeItem :=
  ((folderNames hosts).flatMap fun f =>
    TreeItem.folder f true (sortMembers hosts (visibleFolderIdx hosts f)) ::
      (sortMembers hosts (visibleFolderIdx hosts f)).map TreeItem.host)
  ++ (sortMembers hosts (rootIdx hosts)).map TreeItem.host

/-- `filter_hosts` from the source, as its effect on `tree_items`: with an
empty query it rebuilds the tree, otherwise it emits a flat Host list of
the matching indices. -/
def filter_hosts (hosts : List SshHost) (q : Str) : List TreeItem :=
  if q.isEmpty then rebuild_tree hosts
  else (filteredIdx hosts q).map TreeItem.host

/-- `App::next` from the source, as its effect on the selected row. -/
def nextSel (tree_items : List TreeItem) (sel : Option Nat) : Option Nat :=
  if tree_items.isEmpty then sel
  else
    some (match sel with
      | some i => if i ≥ tree_items.length - 1 then 0 else i + 1
      | none => 0)

/-- `App::previous` from the source, as its effect on the selected row. -/
def prevSel (tree_items : List TreeItem) (sel : Option Nat) : Option Nat :=
  if tree_items.isEmpty then sel
  else
    some (match sel with
      | some i => if i = 0 then tree_items.length - 1 else i - 1
      | none => 0)

/-- Whitespace-trimming from the left, as Rust `str::trim_start`. -/
def trimLeft (s : Str) : Str := s.dropWhile Char.isWhitespace

/-- Whitespace-trimming from the right, as Rust `str::trim_end`. -/
def trimRight : Str → Str
  | [] => []
  | c :: s =>
    match trimRight s with
    | [] => if c.isWhitespace then [] else [c]
    | r :: rs => c :: r :: rs

/-- Whitespace-trimming on both sides, as Rust `str::trim`. -/
def trimStr (s : Str) : Str := trimRight (trimLeft s)

/-- ChangeType from src/core/app.rs. -/
inductive ChangeType where
  | added (host : SshHost)
  | modified (old : SshHost) (new : SshHost)
  | deleted (host : SshHost)
deriving DecidableEq, Repr

/-- The nine editable buffer fields of EditingHostData (the captured
`original_*` copies and `current_field`, which only drive mode-switching
and field navigation, are not needed by the claims). -/
structure EditingHostData where
  name : Str
  hostname : Str
  user : Str
  port : Str
  identity_file : Str
  folder : Str
  display_name : Str
  description : Str
  visible : Bool
deriving DecidableEq, Repr

/-- Host built from the edit buffer by `save_edited_host`: empty optional
fields become absent; `other_options` is left empty by `SshHost::new`. -/
def buildHost (d : EditingHostData) : SshHost :=
  { name := d.name
    hostname := if d.hostname.isEmpty then none else some d.hostname
    user := if d.user.isEmpty then none else some d.user
    port := if d.port.isEmpty then none else some d.port
    identity_file := if d.identity_file.isEmpty then none else some d.identity_file
    other_options := []
    folder := if d.folder.isEmpty then none else some d.folder
    display_name := if d.display_name.isEmpty then none else some d.display_name
    description := if d.description.isEmpty then none else some d.description
    visible := d.visible }

/-- `save_edited_host` from the source, as its effect on
`(hosts, pending_changes)`; `editIdx` is `editing_host_index` (`None`
for an add commit).  A name that trims to empty is a silent no-op. -/
def save_edited_host (d : EditingHostData) (editIdx : Option Nat)
    (hosts : List SshHost) (pending : List ChangeType) :
    List SshHost × List ChangeType :=
  if (trimStr d.name).isEmpty then (hosts, pending)
  else
    match editIdx with
    | some i =>
      match hosts[i]? with
      | some old => (hosts.set i (buildHost d),
          pending ++ [ChangeType.modified old (buildHost d)])
      | none => (hosts, pending)
    | none => (hosts ++ [buildHost d], pending ++ [ChangeType.added (buildHost d)])

/-- The `y` branch of `handle_delete_confirm_input` with `delete_target =
Some i`, as its effect on `(hosts, pending_changes)`: capture the host,
append a Deleted entry, remove the host. -/
def delete_confirmed (i : Nat) (hosts : List SshHost) (pending : List ChangeType) :
    List SshHost × List ChangeType :=
  match hosts[i]? with
  | some h => (hosts.eraseIdx i, pending ++ [ChangeType.deleted h])
  | none => (hosts, pending)

/-- The three App fields the staged-edit transaction claims are about. -/
structure AppState where
  hosts : List SshHost
  original_hosts : List SshHost
  pending_changes : List ChangeType
deriving DecidableEq, Repr

/-- One staged operation: an Add commit, an Edit commit on host index
`i`, or a confirmed delete of host index `i`. -/
inductive StagedOp where
  | commitAdd (d : EditingHostData)
  | commitEdit (i : Nat) (d : EditingHostData)
  | confirmDelete (i : Nat)

/-- Effect of one staged operation on the App state; none of the branches
touches `original_hosts`. -/
def applyOp (s : AppState) (op : StagedOp) : AppState :=
  match op with
  | .commitAdd d =>
    { s with hosts := (save_edited_host d none s.hosts s.pending_changes).1,
             pending_changes := (save_edited_host d none s.hosts s.pending_changes).2 }
  | .commitEdit i d =>
    { s with hosts := (save_edited_host d (some i) s.hosts s.pending_changes).1,
             pending_changes := (save_edited_host d (some i) s.hosts s.pending_changes).2 }
  | .confirmDelete i =>
    { s with hosts := (delete_confirmed i s.hosts s.pending_changes).1,
             pending_changes := (delete_confirmed i s.hosts s.pending_changes).2 }

/-- A sequence of staged operations, applied in order. -/
def applyOps (s : AppState) (ops : List StagedOp) : AppState :=
  ops.foldl applyOp s

/-- `discard_changes` from the source: `hosts := original_hosts.clone()`,
clear `pending_changes` (the tree rebuild it triggers is derived state). -/
def discard_changes (s : AppState) : AppState :=
  { s with hosts := s.original_hosts, pending_changes := [] }

/-- `apply_changes` from the source, with the external
`write_ssh_config` result as a parameter: on a write error the `?`
operator returns before any field is mutated, so the state is returned
untouched together with the surfaced error; on success the snapshot is
reset and the ChangeLog cleared. -/
def apply_changes (writeResult : Except Str Unit) (s : AppState) :
    AppState × Option Str :=
  match writeResult with
  | .error e => (s, some e)
  | .ok _ => ({ s with original_hosts := s.hosts, pending_changes := [] }, none)

/-- `discard_current_edit` from the source, as its effect on
`(hosts, pending_changes)`: `cidx` is `current_edit_change_index` and
`editIdx` is `editing_host_index`.  In the Modified branch the source
writes `hosts[hi] = old` by direct indexing (which would panic out of
range); `List.set`, a no-op out of range, models the in-range behaviour. -/
def discard_current_edit (cidx : Option Nat) (editIdx : Option Nat)
    (hosts : List SshHost) (pending : List ChangeType) :
    List SshHost × List ChangeType :=
  match cidx with
  | none => (hosts, pending)
  | some ci =>
    match pending[ci]? with
    | none => (hosts, pending)
    | some (ChangeType.added _) =>
      (if editIdx.isSome then hosts else hosts.dropLast, pending.eraseIdx ci)
    | some (ChangeType.modified old _) =>
      ((match editIdx with
        | some hi => hosts.set hi old
        | none => hosts), pending.eraseIdx ci)
    | some (ChangeType.deleted _) => (hosts, pending.eraseIdx ci)

/-- One folder group as emitted by `rebuild_tree`: the Folder item
(created expanded) followed by its member Host items in display-name
order. -/
def folderBlock (hosts : List SshHost) (f : Str) : List TreeItem :=
  TreeItem.folder f true (sortMembers hosts (visibleFolderIdx hosts f)) ::
    (sortMembers hosts (visibleFolderIdx hosts f)).map TreeItem.host

/-- Insertion of a list of items at position `p`, modelling the source's
sequential `Vec::insert` calls at `p`, `p+1`, … (in `toggle_folder_expanded`
the insertion position `folder_index + 1` never exceeds the length). -/
def insertListAt (l : List TreeItem) (p : Nat) (xs : List TreeItem) : List TreeItem :=
  List.take p l ++ xs ++ List.drop p l

/-- The collapse loop of `toggle_folder_expanded`: `children_count`
iterations, each removing the item at position `p` if `p` is in range. -/
def removeN : List TreeItem → Nat → Nat → List TreeItem
  | l, _, 0 => l
  | l, p, Nat.succ k => if p < l.length then removeN (l.eraseIdx p) p k else removeN l p k

/-- `toggle_folder_expanded` from the source: flip the flag of the Folder
item at `fi`; if it becomes expanded, insert its recorded children
re-sorted by display name right after it; if it becomes collapsed, remove
`children_indices.len()` following rows (bounds-checked).  Not a rebuild. -/
def toggle_folder_expanded (hosts : List SshHost) (tree : List TreeItem)
    (fi : Nat) : List TreeItem :=
  match tree[fi]? with
  | some (TreeItem.folder name exp ch) =>
    if exp then
      removeN (tree.set fi (TreeItem.folder name false ch)) (fi+1) ch.length
    else
      insertListAt (tree.set fi (TreeItem.folder name true ch)) (fi+1)
        ((sortMembers hosts ch).map TreeItem.host)
  | _ => tree

/-- Expanded flag of a Folder item (`true` for Host items). -/
def expandedFlag : TreeItem → Bool
  | TreeItem.folder _ e _ => e
  | TreeItem.host _ => true

/-- The host list of the spec scenario: db and web in folder "prod",
bastion at root. -/
def demoHosts : List SshHost :=
  [{ SshHost.new (str "db") with folder := some (str "prod") },
   { SshHost.new (str "web") with folder := some (str "prod") },
   SshHost.new (str "bastion")]

/-- One host in folder "f": the concrete input showing that a rebuild
resets the expand flag. -/
def cHosts7 : List SshHost :=
  [{ SshHost.new (str "a") with folder := some (str "f") }]

/-- Key with its first character upper-cased, as the
`chars().next().unwrap().to_uppercase().chain(skip(1))` expression of the
source (modelled character-wise; the source would panic on an empty key,
which the parser never produces). -/
def capFirst : Str → Str
  | [] => []
  | c :: rest => Char.toUpper c :: rest

/-- One diff line for a present optional field, nothing for an absent
one (the `if let Some` pushes of the source). -/
def optLine (pre : Str) (o : Option Str) : List Str :=
  match o with
  | some v => [pre ++ v]
  | none => []

/-- Rust `format("{}", bool)`. -/
def boolStr (b : Bool) : Str := if b then str "true" else str "false"

/-- The `ChangeType::Added` arm of `generate_diff_lines`. -/
def addedLines (h : SshHost) : List Str :=
  optLine (str "+ # @folder: ") h.folder ++
  optLine (str "+ # @name: ") h.display_name ++
  optLine (str "+ # @description: ") h.description ++
  (if h.visible then [] else [str "+ # @visible: false"]) ++
  [str "+ Host " ++ h.name] ++
  optLine (str "+   HostName ") h.hostname ++
  optLine (str "+   User ") h.user ++
  optLine (str "+   Port ") h.port ++
  optLine (str "+   IdentityFile ") h.identity_file ++
  (h.other_options.map fun kv => str "+   " ++ capFirst kv.1 ++ str " " ++ kv.2) ++
  [[]]

/-- The `ChangeType::Deleted` arm of `generate_diff_lines`. -/
def deletedLines (h : SshHost) : List Str :=
  optLine (str "- # @folder: ") h.folder ++
  optLine (str "- # @name: ") h.display_name ++
  optLine (str "- # @description: ") h.description ++
  (if h.visible then [] else [str "- # @visible: false"]) ++
  [str "- Host " ++ h.name] ++
  optLine (str "-   HostName ") h.hostname ++
  optLine (str "-   User ") h.user ++
  optLine (str "-   Port ") h.port ++
  optLine (str "-   IdentityFile ") h.identity_file ++
  (h.other_options.map fun kv => str "-   " ++ capFirst kv.1 ++ str " " ++ kv.2) ++
  [[]]

/-- The `ChangeType::Modified` arm of `generate_diff_lines`: a header from
the old name, then per differing field the old value (when present) as a
`-` line and the new value (when present) as a `+` line; `other_options`
is never compared. -/
def modifiedLines (old : SshHost) (nw : SshHost) : List Str :=
  [str "~ Host " ++ old.name] ++
  (if old.folder = nw.folder then [] else
    optLine (str "- # @folder: ") old.folder ++
    optLine (str "+ # @folder: ") nw.folder) ++
  (if old.display_name = nw.display_name then [] else
    optLine (str "- # @name: ") old.display_name ++
    optLine (str "+ # @name: ") nw.display_name) ++
  (if old.description = nw.description then [] else
    optLine (str "- # @description: ") old.description ++
    optLine (str "+ # @description: ") nw.description) ++
  (if old.visible = nw.visible then [] else
    [str "- # @visible: " ++ boolStr old.visible,
     str "+ # @visible: " ++ boolStr nw.visible]) ++
  (if old.hostname = nw.hostname then [] else
    optLine (str "-   HostName ") old.hostname ++
    optLine (str "+   HostName ") nw.hostname) ++
  (if old.user = nw.user then [] else
    optLine (str "-   User ") old.user ++
    optLine (str "+   User ") nw.user) ++
  (if old.port = nw.port then [] else
    optLine (str "-   Port ") old.port ++
    optLine (str "+   Port ") nw.port) ++
  (if old.identity_file = nw.identity_file then [] else
    optLine (str "-   IdentityFile ") old.identity_file ++
    optLine (str "+   IdentityFile ") nw.identity_file) ++
  [[]]

/-- Lines contributed by one ChangeLog entry. -/
def changeLines : ChangeType → List Str
  | ChangeType.added h => addedLines h
  | ChangeType.modified old nw => modifiedLines old nw
  | ChangeType.deleted h => deletedLines h

/-- `generate_diff_lines` from the source: the entries in order, each
contributing its block of lines. -/
def generate_diff_lines (pending : List ChangeType) : List Str :=
  pending.flatMap changeLines

/-- Per-field rendering of the amended C8 rendering rule: nothing when
equal, else the old value when present as a `-` line and the new value
when present as a `+` line. -/
def pairDiff (o n : Option Str) (mkOld mkNew : Str → Str) : List Str :=
  if o = n then []
  else
    (match o with | some v => [mkOld v] | none => []) ++
    (match n with | some v => [mkNew v] | none => [])

/-- Field blocks of a Modified entry per the amended C8 claim, in order
folder, display-name, description, visible, HostName, User, Port,
IdentityFile — and nothing else. -/
def fieldDiffLines (old : SshHost) (nw : SshHost) : List Str :=
  pairDiff old.folder nw.folder
    (fun v => str "- # @folder: " ++ v) (fun v => str "+ # @folder: " ++ v) ++
  pairDiff old.display_name nw.display_name
    (fun v => str "- # @name: " ++ v) (fun v => str "+ # @name: " ++ v) ++
  pairDiff old.description nw.description
    (fun v => str "- # @description: " ++ v) (fun v => str "+ # @description: " ++ v) ++
  (if old.visible = nw.visible then [] else
    [str "- # @visible: " ++ boolStr old.visible,
     str "+ # @visible: " ++ boolStr nw.visible]) ++
  pairDiff old.hostname nw.hostname
    (fun v => str "-   HostName " ++ v) (fun v => str "+   HostName " ++ v) ++
  pairDiff old.user nw.user
    (fun v => str "-   User " ++ v) (fun v => str "+   User " ++ v) ++
  pairDiff old.port nw.port
    (fun v => str "-   Port " ++ v) (fun v => str "+   Port " ++ v) ++
  pairDiff old.identity_file nw.identity_file
    (fun v => str "-   IdentityFile " ++ v) (fun v => str "+   IdentityFile " ++ v)

/-- Modified entry with only an unrecognized-option difference. -/
def c8old : SshHost :=
  { SshHost.new (str "a") with other_options := [(str "foo", str "x")] }

/-- New side of the C8 counterexample: hostname added, option changed. -/
def c8new : SshHost :=
  { SshHost.new (str "a") with
    hostname := some (str "h")
    other_options := [(str "foo", str "y")] }

/-- Split on a separator character, as the line iteration of the parser
(Rust `lines()`; a trailing newline yields a final empty segment here,
which the parser skips as an empty line, so the two agree). -/
def splitOnChar (c : Char) : Str → List Str
  | [] => [[]]
  | a :: s =>
    if a = c then [] :: splitOnChar c s
    else
      match splitOnChar c s with
      | [] => [[a]]
      | p :: ps => (a :: p) :: ps

/-- `splitn(2, char::is_whitespace)`: the text before the first
whitespace character, and the remainder after it when one exists. -/
def splitFirstWs : Str → Str × Option Str
  | [] => ([], none)
  | c :: t =>
    if c.isWhitespace then ([], some t)
    else
      match splitFirstWs t with
      | (k, r) => (c :: k, r)

/-- `meta_line.find(':')` with the two slices around the first colon. -/
def splitFirstColon : Str → Option (Str × Str)
  | [] => none
  | c :: t =>
    if c = ':' then some ([], t)
    else
      match splitFirstColon t with
      | some (k, v) => some (c :: k, v)
      | none => none

/-- `HashMap::insert`: replace the value of an existing key, else append. -/
def assocInsert (k v : Str) (m : List (Str × Str)) : List (Str × Str) :=
  if m.any (fun p => p.1 = k) then
    m.map (fun p => if p.1 = k then (k, v) else p)
  else m ++ [(k, v)]

/-- `HashMap::get`-style lookup in the association-list model. -/
def assocLookup (k : Str) : List (Str × Str) → Option Str
  | [] => none
  | (k2, v) :: t => if k2 = k then some v else assocLookup k t

/-- State of the parser loop: hosts emitted so far, the host being built,
and the pending metadata comments. -/
structure ParseState where
  hosts : List SshHost
  current : Option SshHost
  pending : List (Str × Str)
deriving Repr

/-- Application of the pending metadata to a fresh host at its `Host`
line (the source `remove`s the four keys and then clears the map; only
the lookups are observable, the map is cleared either way). -/
def applyMeta (h : SshHost) (pending : List (Str × Str)) : SshHost :=
  let h1 := match assocLookup (str "folder") pending with
    | some v => { h with folder := some v }
    | none => h
  let h2 := match assocLookup (str "name") pending with
    | some v => { h1 with display_name := some v }
    | none => h1
  let h3 := match assocLookup (str "description") pending with
    | some v => { h2 with description := some v }
    | none => h2
  match assocLookup (str "visible") pending with
  | some v => { h3 with visible := decide (toLowerStr v ≠ str "false") }
  | none => h3

/-- One iteration of the `parse_ssh_config` line loop. -/
def parseLine (st : ParseState) (rawLine : Str) : ParseState :=
  let line := trimStr rawLine
  if line.isEmpty then st
  else if line.head? = some '#' then
    if (str "# @").isPrefixOf line then
      match splitFirstColon (trimStr (line.drop 3)) with
      | some (k, v) =>
        { st with pending := assocInsert (trimStr k) (trimStr v) st.pending }
      | none => st
    else st
  else
    let sp := splitFirstWs line
    let key := toLowerStr sp.1
    let value := match sp.2 with
      | some r => trimStr r
      | none => []
    if key = str "host" then
      { hosts := st.hosts ++ st.current.toList,
        current := some (applyMeta (SshHost.new value) st.pending),
        pending := [] }
    else if key = str "hostname" then
      { st with current := st.current.map fun h =>
          if value.isEmpty then h else { h with hostname := some value } }
    else if key = str "user" then
      { st with current := st.current.map fun h =>
          if value.isEmpty then h else { h with user := some value } }
    else if key = str "port" then
      { st with current := st.current.map fun h =>
          if value.isEmpty then h else { h with port := some value } }
    else if key = str "identityfile" then
      { st with current := st.current.map fun h =>
          if value.isEmpty then h else { h with identity_file := some value } }
    else
      { st with current := st.current.map fun h =>
          { h with other_options := assocInsert key value h.other_options } }

/-- `parse_ssh_config` from the source, on the file content: fold the
line loop, then push the host still being built. -/
def parse_ssh_config (content : Str) : List SshHost :=
  let fin := (splitOnChar '\n' content).foldl parseLine ⟨[], none, []⟩
  fin.hosts ++ fin.current.toList

/-- Metadata comment block written before a host (folder, display-name,
description, visible-when-false). -/
def metaLines (h : SshHost) : List Str :=
  (match h.folder with | some v => [str "# @folder: " ++ v] | none => []) ++
  (match h.display_name with | some v => [str "# @name: " ++ v] | none => []) ++
  (match h.description with | some v => [str "# @description: " ++ v] | none => []) ++
  (if h.visible then [] else [str "# @visible: false"])

/-- Field lines written after the `Host` header, one per present field. -/
def fieldLines (h : SshHost) : List Str :=
  (match h.hostname with | some v => [str "    HostName " ++ v] | none => []) ++
  (match h.user with | some v => [str "    User " ++ v] | none => []) ++
  (match h.port with | some v => [str "    Port " ++ v] | none => []) ++
  (match h.identity_file with | some v => [str "    IdentityFile " ++ v] | none => [])

/-- All lines written for one host by `write_ssh_config`: metadata block,
`Host` header, field lines, then the unrecognized options with
capitalized keys. -/
def hostLines (h : SshHost) : List Str :=
  metaLines h ++ [str "Host " ++ h.name] ++ fieldLines h ++
  (h.other_options.map fun kv => str "    " ++ capFirst kv.1 ++ str " " ++ kv.2)

/-- `write_ssh_config` from the source, as the content string it writes:
every line is pushed with a trailing newline and each host is followed by
one extra blank line (`content.push('\n')`). -/
def write_ssh_config (hosts : List SshHost) : Str :=
  hosts.flatMap fun h => (hostLines h ++ [[]]).flatMap fun l => l ++ ['\n']

/-- Well-formedness making a string survive the parser's trimming: it is
nonempty, carries no leading or trailing whitespace, and contains no
newline. -/
def goodStr (s : Str) : Prop :=
  s ≠ [] ∧ trimLeft s = s ∧ trimRight s = s ∧ '\n' ∉ s

instance (s : Str) : Decidable (goodStr s) := by
  unfold goodStr
  infer_instance

/-- Well-formedness of an optional field: present values are `goodStr`. -/
def goodOpt (o : Option Str) : Prop :=
  match o with
  | some v => goodStr v
  | none => True

instance (o : Option Str) : Decidable (goodOpt o) :=
  match o with
  | some v => inferInstanceAs (Decidable (goodStr v))
  | none => inferInstanceAs (Decidable True)

/-- Hosts whose write-out re-parses exactly: every present string field
is `goodStr` and there are no unrecognized options (hosts built by the
editor always have empty `other_options`). -/
def goodHost (h : SshHost) : Prop :=
  goodStr h.name ∧ h.other_options = [] ∧
  goodOpt h.hostname ∧ goodOpt h.user ∧ goodOpt h.port ∧
  goodOpt h.identity_file ∧ goodOpt h.folder ∧ goodOpt h.display_name ∧
  goodOpt h.description

instance (h : SshHost) : Decidable (goodHost h) := by
  unfold goodHost
  infer_instance

/-- Edit buffer with the name "a " (trailing space): the commit accepts
it (the name trims to "a", which is nonempty), but the parser trims the
written `Host a ` line back to name "a". -/
def c6buf : EditingHostData :=
  { name := str "a ", hostname := [], user := [], port := [],
    identity_file := [], folder := [], display_name := [], description := [],
    visible := true }

/-- Host as rebuilt by the parser right after its `Host` line: fresh host
with the metadata comments applied. -/
def withMetaHost (h : SshHost) : SshHost :=
  { SshHost.new h.name with
    folder := h.folder
    display_name := h.display_name
    description := h.description
    visible := h.visible }

/-- Well-formed host used to witness the round trip. -/
def w6host : SshHost :=
  { SshHost.new (str "alpha") with
    hostname := some (str "h.example")
    user := some (str "root")
    port := some (str "2222")
    identity_file := some (str "id file")
    folder := some (str "prod")
    display_name := some (str "Alpha One")
    description := some (str "desc: here")
    visible := false }

lemma strLt_irrefl (a : Str) : strLt a a = false := by
  induction a with
  | nil => rfl
  | cons c t ih => simp [strLt, ih]

lemma strLt_asymm {a b : Str} (h : strLt a b = true) : strLt b a = false := by
  induction a generalizing b with
  | nil =>
    cases b with
    | nil => exact absurd h (by simp [strLt])
    | cons d u => simp [strLt]
  | cons c t ih =>
    cases b with
    | nil => simp [strLt] at h
    | cons d u =>
      simp only [strLt, Bool.or_eq_true, Bool.and_eq_true, decide_eq_true_eq] at h
      simp only [strLt, Bool.or_eq_false_iff, Bool.and_eq_false_iff,
        decide_eq_false_iff_not]
      rcases h with h | ⟨rfl, h⟩
      · exact ⟨not_lt_of_gt h, Or.inl (ne_of_gt h)⟩
      · exact ⟨lt_irrefl c, Or.inr (ih h)⟩

lemma strLt_trans {a b c : Str} (hab : strLt a b = true) (hbc : strLt b c = true) :
    strLt a c = true := by
  induction a generalizing b c with
  | nil =>
    cases b with
    | nil => simp [strLt] at hab
    | cons d u =>
      cases c with
      | nil => simp [strLt] at hbc
      | cons e v => simp [strLt]
  | cons x t ih =>
    cases b with
    | nil => simp [strLt] at hab
    | cons d u =>
      cases c with
      | nil => simp [strLt] at hbc
      | cons e v =>
        simp only [strLt, Bool.or_eq_true, Bool.and_eq_true, decide_eq_true_eq] at hab hbc ⊢
        rcases hab with h1 | ⟨rfl, h1⟩
        · rcases hbc with h2 | ⟨rfl, h2⟩
          · exact Or.inl (lt_trans h1 h2)
          · exact Or.inl h1
        · rcases hbc with h2 | ⟨rfl, h2⟩
          · exact Or.inl h2
          · exact Or.inr ⟨rfl, ih h1 h2⟩

lemma strLt_connex {a b : Str} (hab : strLt a b = false) (hba : strLt b a = false) :
    a = b := by
  induction a generalizing b with
  | nil =>
    cases b with
    | nil => rfl
    | cons d u => simp [strLt] at hab
  | cons c t ih =>
    cases b with
    | nil => simp [strLt] at hba
    | cons d u =>
      simp only [strLt, Bool.or_eq_false_iff, Bool.and_eq_false_iff,
        decide_eq_false_iff_not] at hab hba
      obtain ⟨h1, h2⟩ := hab
      obtain ⟨h3, h4⟩ := hba
      have hcd : c = d := le_antisymm (not_lt.mp h3) (not_lt.mp h1)
      subst hcd
      rcases h2 with h2 | h2
      · exact absurd rfl h2
      rcases h4 with h4 | h4
      · exact absurd rfl h4
      rw [ih h2 h4]

lemma strLe_total (a b : Str) : (strLe a b || strLe b a) = true := by
  unfold strLe
  cases hab : strLt b a
  · simp
  · simp [strLt_asymm hab]

lemma strLt_trichotomy (a b : Str) : strLt a b = true ∨ a = b ∨ strLt b a = true := by
  cases hab : strLt a b
  · cases hba : strLt b a
    · exact Or.inr (Or.inl (strLt_connex hab hba))
    · exact Or.inr (Or.inr rfl)
  · exact Or.inl rfl

lemma strLe_trans {a b c : Str} (hab : strLe a b = true) (hbc : strLe b c = true) :
    strLe a c = true := by
  unfold strLe at hab hbc ⊢
  simp only [Bool.not_eq_true'] at hab hbc ⊢
  cases hca : strLt c a
  · rfl
  · exfalso
    rcases strLt_trichotomy b c with h | rfl | h
    · have hba : strLt b a = true := strLt_trans h hca
      rw [hab] at hba
      exact Bool.noConfusion hba
    · rw [hab] at hca
      exact Bool.noConfusion hca
    · rw [hbc] at h
      exact Bool.noConfusion h

lemma dispLe_total (hosts : List SshHost) (a b : Nat) :
    (dispLe hosts a b || dispLe hosts b a) = true :=
  strLe_total _ _

lemma dispLe_trans (hosts : List SshHost) (a b c : Nat)
    (hab : dispLe hosts a b = true) (hbc : dispLe hosts b c = true) :
    dispLe hosts a c = true :=
  strLe_trans hab hbc

lemma filterMap_hostIdx_map_host (l : List Nat) :
    (l.map TreeItem.host).filterMap TreeItem.hostIdx = l := by
  induction l with
  | nil => rfl
  | cons i t ih => simp [TreeItem.hostIdx, ih]

lemma mem_filteredIdx {hosts : List SshHost} {q : Str} {i : Nat} :
    i ∈ filteredIdx hosts q ↔ ∃ h, hosts[i]? = some h ∧ h.matches_search q = true := by
  unfold filteredIdx
  rw [List.mem_filter, List.mem_range]
  constructor
  · rintro ⟨hlt, hm⟩
    cases hh : hosts[i]? with
    | none => rw [hh] at hm; exact Bool.noConfusion hm
    | some h => exact ⟨h, rfl, by rwa [hh] at hm⟩
  · rintro ⟨h, hh, hm⟩
    have hlt : i < hosts.length := by
      by_contra hge
      rw [List.getElem?_eq_none (by omega)] at hh
      exact Option.noConfusion hh
    exact ⟨hlt, by rw [hh]; exact hm⟩

lemma pairwise_lt_filteredIdx (hosts : List SshHost) (q : Str) :
    List.Pairwise (· < ·) (filteredIdx hosts q) :=
  (List.pairwise_lt_range _).filter _

/-- C4: with a non-empty query the rebuilt tree is a flat list: every item
is a Host item, a Host item for index `i` is present exactly when the host
at `i` matches the query (case-insensitive substring OR-ed across name,
hostname, user, display_name, description, folder), and the host indices
appear in strictly increasing (original list) order, so each matching host
contributes exactly one item and nothing else appears. -/
theorem C4_search_tree_flat_exact (hosts : List SshHost) (q : Str) (hq : q ≠ []) :
    (∀ it ∈ filter_hosts hosts q, ∃ i, it = TreeItem.host i) ∧
    (∀ i, TreeItem.host i ∈ filter_hosts hosts q ↔
      ∃ h, hosts[i]? = some h ∧ h.matches_search q = true) ∧
    List.Pairwise (· < ·) ((filter_hosts hosts q).filterMap TreeItem.hostIdx) := by
  have hne : q.isEmpty = false := by
    cases q with
    | nil => exact absurd rfl hq
    | cons c t => rfl
  have hT : filter_hosts hosts q = (filteredIdx hosts q).map TreeItem.host := by
    simp [filter_hosts, hne]
  rw [hT]
  refine ⟨?_, ?_, ?_⟩
  · intro it hit
    rcases List.mem_map.mp hit with ⟨i, _, rfl⟩
    exact ⟨i, rfl⟩
  · intro i
    rw [List.mem_map]
    constructor
    · rintro ⟨j, hj, hji⟩
      cases hji
      exact mem_filteredIdx.mp hj
    · intro hex
      exact ⟨i, mem_filteredIdx.mpr hex, rfl⟩
  · rw [filterMap_hostIdx_map_host]
    exact pairwise_lt_filteredIdx hosts q

/-- C4 witness: at a concrete host list and query "db", the tree is the
single matching host. -/
theorem C4_search_tree_flat_exact_witness :
    (∀ it ∈ filter_hosts [SshHost.new (str "db"), SshHost.new (str "web")] (str "db"),
      ∃ i, it = TreeItem.host i) ∧
    (TreeItem.host 0 ∈ filter_hosts [SshHost.new (str "db"), SshHost.new (str "web")] (str "db") ↔
      ∃ h, [SshHost.new (str "db"), SshHost.new (str "web")][0]? = some h ∧
        h.matches_search (str "db") = true) :=
  ⟨(C4_search_tree_flat_exact [SshHost.new (str "db"), SshHost.new (str "web")] (str "db")
      (by decide)).1,
   (C4_search_tree_flat_exact [SshHost.new (str "db"), SshHost.new (str "web")] (str "db")
      (by decide)).2.1 0⟩

/-- C10: selection movement wraps: on a non-empty tree, Down from the last
row selects row 0 and Up from row 0 selects the last row; on an empty tree
both keys leave the selection unchanged; with no selection either key
selects row 0. -/
theorem C10_selection_wraps (tree_items : List TreeItem) (sel : Option Nat)
    (hne : tree_items ≠ []) :
    nextSel tree_items (some (tree_items.length - 1)) = some 0 ∧
    prevSel tree_items (some 0) = some (tree_items.length - 1) ∧
    nextSel [] sel = sel ∧
    prevSel [] sel = sel ∧
    nextSel tree_items none = some 0 ∧
    prevSel tree_items none = some 0 := by
  have hB : tree_items.isEmpty = false := by
    cases tree_items with
    | nil => exact absurd rfl hne
    | cons a t => rfl
  refine ⟨?_, ?_, rfl, rfl, ?_, ?_⟩
  · simp [nextSel, hB]
  · simp [prevSel, hB]
  · simp [nextSel, hB]
  · simp [prevSel, hB]

/-- C10 witness: wrap-around evaluated on a concrete two-row tree. -/
theorem C10_selection_wraps_witness :
    nextSel [TreeItem.host 0, TreeItem.host 1] (some 1) = some 0 ∧
    prevSel [TreeItem.host 0, TreeItem.host 1] (some 0) = some 1 :=
  ⟨(C10_selection_wraps [TreeItem.host 0, TreeItem.host 1] none (by decide)).1,
   (C10_selection_wraps [TreeItem.host 0, TreeItem.host 1] none (by decide)).2.1⟩

lemma applyOp_original_hosts (s : AppState) (op : StagedOp) :
    (applyOp s op).original_hosts = s.original_hosts := by
  cases op <;> rfl

lemma applyOps_original_hosts (ops : List StagedOp) (s : AppState) :
    (applyOps s ops).original_hosts = s.original_hosts := by
  induction ops generalizing s with
  | nil => rfl
  | cons op t ih =>
    show (applyOps (applyOp s op) t).original_hosts = s.original_hosts
    rw [ih (applyOp s op), applyOp_original_hosts]

/-- C1: no staged Add-commit, Edit-commit or confirmed-Delete ever
modifies `original_hosts`, and after any such sequence a Discard restores
`hosts` to the pre-sequence snapshot and empties the ChangeLog. -/
theorem C1_discard_restores_snapshot (s : AppState) (ops : List StagedOp) :
    (applyOps s ops).original_hosts = s.original_hosts ∧
    (discard_changes (applyOps s ops)).hosts = s.original_hosts ∧
    (discard_changes (applyOps s ops)).original_hosts = s.original_hosts ∧
    (discard_changes (applyOps s ops)).pending_changes = [] := by
  refine ⟨applyOps_original_hosts ops s, ?_, ?_, rfl⟩
  · show (applyOps s ops).original_hosts = s.original_hosts
    exact applyOps_original_hosts ops s
  · show (applyOps s ops).original_hosts = s.original_hosts
    exact applyOps_original_hosts ops s

/-- C2: when the external persist succeeds, `apply_changes` sets
`original_hosts := hosts` and clears the ChangeLog without touching
`hosts`; when it fails, the error is surfaced and the whole state is
returned exactly as it was (no partial apply), so a retry is possible. -/
theorem C2_apply_all_or_nothing (s : AppState) :
    ((apply_changes (Except.ok ()) s).1.hosts = s.hosts ∧
     (apply_changes (Except.ok ()) s).1.original_hosts = s.hosts ∧
     (apply_changes (Except.ok ()) s).1.pending_changes = [] ∧
     (apply_changes (Except.ok ()) s).2 = none) ∧
    (∀ e : Str, apply_changes (Except.error e) s = (s, some e)) :=
  ⟨⟨rfl, rfl, rfl, rfl⟩, fun _ => rfl⟩

/-- C9: `discard_current_edit` with an unset index leaves `hosts` and the
ChangeLog unchanged; with an index naming an Added entry from a fresh add
(`editing_host_index = None`) it pops the last host and removes exactly
that entry; with an index naming a Modified entry during an edit of host
`hi` it restores the captured old host at `hi` and removes exactly that
entry. -/
theorem C9_discard_current_edit_exact (hosts : List SshHost)
    (pending : List ChangeType) (ci hi : Nat) :
    (∀ eidx, discard_current_edit none eidx hosts pending = (hosts, pending)) ∧
    (∀ h, pending[ci]? = some (ChangeType.added h) →
      discard_current_edit (some ci) none hosts pending =
        (hosts.dropLast, pending.eraseIdx ci)) ∧
    (∀ old nw, pending[ci]? = some (ChangeType.modified old nw) →
      discard_current_edit (some ci) (some hi) hosts pending =
        (hosts.set hi old, pending.eraseIdx ci)) := by
  refine ⟨fun _ => rfl, ?_, ?_⟩
  · intro h hent
    simp [discard_current_edit, hent]
  · intro old nw hent
    simp [discard_current_edit, hent]

/-- C9 witness: the three branches evaluated on a concrete pending list
holding an Added and a Modified entry. -/
theorem C9_discard_current_edit_exact_witness :
    (discard_current_edit none none [SshHost.new (str "a")]
      [ChangeType.added (SshHost.new (str "a"))] =
      ([SshHost.new (str "a")], [ChangeType.added (SshHost.new (str "a"))])) ∧
    (discard_current_edit (some 0) none [SshHost.new (str "a")]
      [ChangeType.added (SshHost.new (str "a"))] = ([], [])) ∧
    (discard_current_edit (some 0) (some 0) [SshHost.new (str "b")]
      [ChangeType.modified (SshHost.new (str "a")) (SshHost.new (str "b"))] =
      ([SshHost.new (str "a")],
        [])) :=
  ⟨(C9_discard_current_edit_exact [SshHost.new (str "a")]
      [ChangeType.added (SshHost.new (str "a"))] 0 0).1 none,
   (C9_discard_current_edit_exact [SshHost.new (str "a")]
      [ChangeType.added (SshHost.new (str "a"))] 0 0).2.1
      (SshHost.new (str "a")) (by decide),
   (C9_discard_current_edit_exact [SshHost.new (str "b")]
      [ChangeType.modified (SshHost.new (str "a")) (SshHost.new (str "b"))] 0 0).2.2
      (SshHost.new (str "a")) (SshHost.new (str "b")) (by decide)⟩

lemma rebuild_tree_eq (hosts : List SshHost) :
    rebuild_tree hosts = (folderNames hosts).flatMap (folderBlock hosts) ++
      (sortMembers hosts (rootIdx hosts)).map TreeItem.host := rfl

lemma mem_visibleFolderIdx {hosts : List SshHost} {f : Str} {k : Nat} :
    k ∈ visibleFolderIdx hosts f ↔
      ∃ h, hosts[k]? = some h ∧ h.visible = true ∧ h.folder = some f := by
  unfold visibleFolderIdx
  rw [List.mem_filter, List.mem_range]
  constructor
  · rintro ⟨hlt, hm⟩
    cases hh : hosts[k]? with
    | none => rw [hh] at hm; exact Bool.noConfusion hm
    | some h =>
      rw [hh] at hm
      simp only [Bool.and_eq_true, decide_eq_true_eq] at hm
      exact ⟨h, rfl, hm.1, hm.2⟩
  · rintro ⟨h, hh, hv, hf⟩
    have hlt : k < hosts.length := by
      by_contra hge
      rw [List.getElem?_eq_none (by omega)] at hh
      exact Option.noConfusion hh
    refine ⟨hlt, ?_⟩
    rw [hh]
    simp [hv, hf]

lemma mem_rootIdx {hosts : List SshHost} {k : Nat} :
    k ∈ rootIdx hosts ↔
      ∃ h, hosts[k]? = some h ∧ h.visible = true ∧ h.folder = none := by
  unfold rootIdx
  rw [List.mem_filter, List.mem_range]
  constructor
  · rintro ⟨hlt, hm⟩
    cases hh : hosts[k]? with
    | none => rw [hh] at hm; exact Bool.noConfusion hm
    | some h =>
      rw [hh] at hm
      simp only [Bool.and_eq_true, decide_eq_true_eq] at hm
      exact ⟨h, rfl, hm.1, hm.2⟩
  · rintro ⟨h, hh, hv, hf⟩
    have hlt : k < hosts.length := by
      by_contra hge
      rw [List.getElem?_eq_none (by omega)] at hh
      exact Option.noConfusion hh
    refine ⟨hlt, ?_⟩
    rw [hh]
    simp [hv, hf]

lemma drop_len_append {α : Type _} (A B : List α) :
    List.drop A.length (A ++ B) = B := by
  have h := @List.drop_append _ A B 0
  simpa using h

lemma flatMap_blocks_getElem_folder (hosts : List SshHost) (names : List Str) :
    ∀ (R : List TreeItem), (∀ it ∈ R, ∃ k, it = TreeItem.host k) →
    ∀ i f e m, (names.flatMap (folderBlock hosts) ++ R)[i]? =
        some (TreeItem.folder f e m) →
      e = true ∧ m = sortMembers hosts (visibleFolderIdx hosts f) ∧
      List.drop (i+1) (names.flatMap (folderBlock hosts) ++ R) =
        m.map TreeItem.host ++
          List.drop (i+1+m.length) (names.flatMap (folderBlock hosts) ++ R) := by
  induction names with
  | nil =>
    intro R hR i f e m hi
    rw [List.flatMap_nil, List.nil_append] at hi
    rcases hR _ (List.getElem?_mem hi) with ⟨k, hk⟩
    exact absurd hk (by simp)
  | cons f0 rest ih =>
    intro R hR i f e m hi
    rw [List.flatMap_cons, List.append_assoc] at hi ⊢
    rw [List.getElem?_append] at hi
    by_cases hlen : i < (folderBlock hosts f0).length
    · rw [if_pos hlen] at hi
      match i with
      | 0 =>
        have h0 : (folderBlock hosts f0)[0]? = some (TreeItem.folder f0 true
            (sortMembers hosts (visibleFolderIdx hosts f0))) := by
          rw [folderBlock]
          simp
        rw [h0] at hi
        injection hi with hi
        injection hi with h1 h2 h3
        subst h1; subst h2; subst h3
        refine ⟨rfl, rfl, ?_⟩
        generalize rest.flatMap (folderBlock hosts) ++ R = T2
        rw [folderBlock, List.cons_append]
        have hd1 : List.drop (0+1)
            (TreeItem.folder f0 true (sortMembers hosts (visibleFolderIdx hosts f0)) ::
              ((sortMembers hosts (visibleFolderIdx hosts f0)).map TreeItem.host ++ T2)) =
            (sortMembers hosts (visibleFolderIdx hosts f0)).map TreeItem.host ++ T2 := rfl
        rw [hd1]
        have hd2 : List.drop (0+1+(sortMembers hosts (visibleFolderIdx hosts f0)).length)
            (TreeItem.folder f0 true (sortMembers hosts (visibleFolderIdx hosts f0)) ::
              ((sortMembers hosts (visibleFolderIdx hosts f0)).map TreeItem.host ++ T2)) =
            T2 := by
          rw [show 0+1+(sortMembers hosts (visibleFolderIdx hosts f0)).length =
            (sortMembers hosts (visibleFolderIdx hosts f0)).length + 1 by omega]
          rw [List.drop_succ_cons]
          rw [show (sortMembers hosts (visibleFolderIdx hosts f0)).length =
            ((sortMembers hosts (visibleFolderIdx hosts f0)).map TreeItem.host).length by
              simp]
          exact drop_len_append _ _
        rw [hd2]
      | Nat.succ j =>
        have hgm : (folderBlock hosts f0)[j+1]? =
            ((sortMembers hosts (visibleFolderIdx hosts f0)).map TreeItem.host)[j]? := by
          rw [folderBlock]
          simp
        rw [hgm, List.getElem?_map] at hi
        cases hmj : (sortMembers hosts (visibleFolderIdx hosts f0))[j]? with
        | none => rw [hmj] at hi; exact Option.noConfusion hi
        | some k =>
          rw [hmj] at hi
          exact absurd hi (by simp [TreeItem.host])
    · rw [if_neg hlen] at hi
      obtain ⟨j, rfl⟩ : ∃ j, i = (folderBlock hosts f0).length + j :=
        ⟨i - (folderBlock hosts f0).length, by omega⟩
      rw [Nat.add_sub_cancel_left] at hi
      obtain ⟨he, hm, hdrop⟩ := ih R hR j f e m hi
      refine ⟨he, hm, ?_⟩
      rw [show (folderBlock hosts f0).length + j + 1 =
        (folderBlock hosts f0).length + (j+1) by omega, List.drop_append,
        show (folderBlock hosts f0).length + (j+1) + m.length =
          (folderBlock hosts f0).length + (j+1+m.length) by omega,
        List.drop_append]
      exact hdrop

lemma filterMap_folderName_map_host (l : List Nat) :
    (l.map TreeItem.host).filterMap TreeItem.folderName = [] := by
  induction l with
  | nil => rfl
  | cons k t ih => simp [TreeItem.folderName, ih]

lemma filterMap_folderName_blocks (hosts : List SshHost) (names : List Str)
    (R : List TreeItem) (hR : R.filterMap TreeItem.folderName = []) :
    ((names.flatMap (folderBlock hosts)) ++ R).filterMap TreeItem.folderName = names := by
  induction names with
  | nil => simpa using hR
  | cons f0 rest ih =>
    rw [List.flatMap_cons, List.append_assoc, List.filterMap_append]
    have hb : (folderBlock hosts f0).filterMap TreeItem.folderName = [f0] := by
      simp [folderBlock, List.filterMap_cons, TreeItem.folderName,
        filterMap_folderName_map_host]
    rw [hb, ih]
    rfl

lemma mem_insertSorted {α : Type _} (le : α → α → Bool) (x a : α) (l : List α) :
    a ∈ insertSorted le x l ↔ a = x ∨ a ∈ l := by
  induction l with
  | nil => simp [insertSorted]
  | cons y t ih =>
    by_cases h : le x y = true
    · simp [insertSorted, h]
    · simp only [insertSorted, h, if_false, Bool.false_eq_true, List.mem_cons, ih]
      tauto

lemma mem_stableSort {α : Type _} (le : α → α → Bool) (a : α) (l : List α) :
    a ∈ stableSort le l ↔ a ∈ l := by
  induction l with
  | nil => simp [stableSort]
  | cons x t ih => simp [stableSort, mem_insertSorted, ih]

lemma length_insertSorted {α : Type _} (le : α → α → Bool) (x : α) (l : List α) :
    (insertSorted le x l).length = l.length + 1 := by
  induction l with
  | nil => rfl
  | cons y t ih =>
    by_cases h : le x y = true
    · simp [insertSorted, h]
    · simp [insertSorted, h, ih]

lemma length_stableSort {α : Type _} (le : α → α → Bool) (l : List α) :
    (stableSort le l).length = l.length := by
  induction l with
  | nil => rfl
  | cons x t ih => simp [stableSort, length_insertSorted, ih]

lemma pairwise_insertSorted {α : Type _} (le : α → α → Bool)
    (trans : ∀ a b c, le a b = true → le b c = true → le a c = true)
    (total : ∀ a b, (le a b || le b a) = true)
    (x : α) (l : List α) (h : List.Pairwise (fun a b => le a b = true) l) :
    List.Pairwise (fun a b => le a b = true) (insertSorted le x l) := by
  induction l with
  | nil => simp [insertSorted]
  | cons y t ih =>
    rcases List.pairwise_cons.mp h with ⟨hy, ht⟩
    by_cases hxy : le x y = true
    · rw [insertSorted, if_pos hxy]
      refine List.pairwise_cons.mpr ⟨?_, h⟩
      intro z hz
      rcases List.mem_cons.mp hz with rfl | hz
      · exact hxy
      · exact trans x y z hxy (hy z hz)
    · rw [insertSorted, if_neg hxy]
      refine List.pairwise_cons.mpr ⟨?_, ih ht⟩
      intro z hz
      rcases (mem_insertSorted le x z t).mp hz with rfl | hz
      · have htot := total z y
        rw [Bool.or_eq_true] at htot
        rcases htot with htot | htot
        · exact absurd htot hxy
        · exact htot
      · exact hy z hz

lemma pairwise_stableSort {α : Type _} (le : α → α → Bool)
    (trans : ∀ a b c, le a b = true → le b c = true → le a c = true)
    (total : ∀ a b, (le a b || le b a) = true) (l : List α) :
    List.Pairwise (fun a b => le a b = true) (stableSort le l) := by
  induction l with
  | nil => simp [stableSort]
  | cons x t ih => exact pairwise_insertSorted le trans total x _ ih

lemma stableSort_of_sorted {α : Type _} {le : α → α → Bool} {l : List α}
    (h : List.Pairwise (fun a b => le a b = true) l) : stableSort le l = l := by
  induction l with
  | nil => rfl
  | cons x t ih =>
    rcases List.pairwise_cons.mp h with ⟨hx, ht⟩
    rw [stableSort, ih ht]
    cases t with
    | nil => rfl
    | cons y u => rw [insertSorted, if_pos (hx y (List.mem_cons_self y u))]

lemma root_part_hosts (hosts : List SshHost) :
    ∀ it ∈ (sortMembers hosts (rootIdx hosts)).map TreeItem.host,
      ∃ k, it = TreeItem.host k := by
  intro it hit
  rcases List.mem_map.mp hit with ⟨k, _, rfl⟩
  exact ⟨k, rfl⟩

/-- C3: with an empty query the tree is rebuilt; in the rebuilt tree every
Host item points at a visible host and every visible host appears; the
folder names appear in lexicographic order; every Folder item is expanded,
its member list is exactly the visible hosts of that folder, sorted by
effective display name, and is placed immediately after it; the tree ends
with exactly the visible hosts without a folder, sorted the same way
(by effective display name), after all folder items; and the spec scenario
[db:prod, web:prod, bastion] yields [Folder(prod,[db,web]), db, web,
bastion]. -/
theorem C3_tree_empty_query (hosts : List SshHost) :
    filter_hosts hosts [] = rebuild_tree hosts ∧
    (∀ k, TreeItem.host k ∈ rebuild_tree hosts →
      ∃ h, hosts[k]? = some h ∧ h.visible = true) ∧
    (∀ k h, hosts[k]? = some h → h.visible = true →
      TreeItem.host k ∈ rebuild_tree hosts) ∧
    List.Pairwise (fun a b => strLe a b = true)
      ((rebuild_tree hosts).filterMap TreeItem.folderName) ∧
    (∀ i f e m, (rebuild_tree hosts)[i]? = some (TreeItem.folder f e m) →
      e = true ∧ List.Pairwise (fun a b => dispLe hosts a b = true) m ∧
      (∀ k, k ∈ m ↔ ∃ h, hosts[k]? = some h ∧ h.visible = true ∧
        h.folder = some f) ∧
      List.drop (i+1) (rebuild_tree hosts) =
        m.map TreeItem.host ++ List.drop (i+1+m.length) (rebuild_tree hosts)) ∧
    (∀ (i j : Nat) (f : Str) (e : Bool) (m : List Nat) (k : Nat) (h : SshHost),
      (rebuild_tree hosts)[i]? = some (TreeItem.folder f e m) →
      (rebuild_tree hosts)[j]? = some (TreeItem.host k) →
      hosts[k]? = some h → h.folder = none → i < j) ∧
    (∃ F r, rebuild_tree hosts = F ++ r.map TreeItem.host ∧
      List.Pairwise (fun a b => dispLe hosts a b = true) r ∧
      (∀ k, k ∈ r ↔ ∃ h, hosts[k]? = some h ∧ h.visible = true ∧
        h.folder = none) ∧
      (∀ k, TreeItem.host k ∈ F →
        ∃ h f, hosts[k]? = some h ∧ h.folder = some f)) ∧
    rebuild_tree demoHosts =
      [TreeItem.folder (str "prod") true [0, 1], TreeItem.host 0,
       TreeItem.host 1, TreeItem.host 2] := by
  refine ⟨rfl, ?_, ?_, ?_, ?_, ?_, ?_, by decide⟩
  · intro k hk
    rw [rebuild_tree_eq] at hk
    rcases List.mem_append.mp hk with hk | hk
    · rcases List.mem_flatMap.mp hk with ⟨f0, _, hmem⟩
      rcases List.mem_cons.mp hmem with heq | hmem2
      · exact absurd heq (by simp)
      · rcases List.mem_map.mp hmem2 with ⟨k2, hk2, heq2⟩
        injection heq2 with hkk
        subst hkk
        rw [sortMembers] at hk2
        rcases mem_visibleFolderIdx.mp ((mem_stableSort _ _ _).mp hk2) with ⟨h, hh, hv, _⟩
        exact ⟨h, hh, hv⟩
    · rcases List.mem_map.mp hk with ⟨k2, hk2, heq2⟩
      injection heq2 with hkk
      subst hkk
      rw [sortMembers] at hk2
      rcases mem_rootIdx.mp ((mem_stableSort _ _ _).mp hk2) with ⟨h, hh, hv, _⟩
      exact ⟨h, hh, hv⟩
  · intro k h hk hv
    rw [rebuild_tree_eq]
    rcases hfol : h.folder with _ | f
    · refine List.mem_append.mpr (Or.inr ?_)
      refine List.mem_map.mpr ⟨k, ?_, rfl⟩
      rw [sortMembers]
      exact (mem_stableSort _ _ _).mpr (mem_rootIdx.mpr ⟨h, hk, hv, hfol⟩)
    · refine List.mem_append.mpr (Or.inl ?_)
      refine List.mem_flatMap.mpr ⟨f, ?_, ?_⟩
      · rw [folderNames]
        refine (mem_stableSort _ _ _).mpr (List.mem_dedup.mpr ?_)
        refine List.mem_filterMap.mpr ⟨h, ?_, hfol⟩
        exact List.mem_filter.mpr ⟨List.getElem?_mem hk, hv⟩
      · refine List.mem_cons.mpr (Or.inr ?_)
        refine List.mem_map.mpr ⟨k, ?_, rfl⟩
        rw [sortMembers]
        exact (mem_stableSort _ _ _).mpr (mem_visibleFolderIdx.mpr ⟨h, hk, hv, hfol⟩)
  · rw [rebuild_tree_eq,
      filterMap_folderName_blocks hosts _ _ (filterMap_folderName_map_host _)]
    exact pairwise_stableSort strLe (fun a b c hab hbc => strLe_trans hab hbc)
      strLe_total _
  · intro i f e m hi
    rw [rebuild_tree_eq] at hi
    obtain ⟨he, hm, hdrop⟩ := flatMap_blocks_getElem_folder hosts (folderNames hosts)
      _ (root_part_hosts hosts) i f e m hi
    refine ⟨he, ?_, ?_, ?_⟩
    · rw [hm, sortMembers]
      exact pairwise_stableSort _ (fun a b c hab hbc => dispLe_trans hosts a b c hab hbc)
        (dispLe_total hosts) _
    · intro k
      rw [hm, sortMembers]
      exact (mem_stableSort _ _ _).trans mem_visibleFolderIdx
    · rw [rebuild_tree_eq]
      exact hdrop
  · intro i j f e m k h hi hj hk hfol
    have hiLT : i < ((folderNames hosts).flatMap (folderBlock hosts)).length := by
      by_contra hge
      push_neg at hge
      rw [rebuild_tree_eq, List.getElem?_append, if_neg (by omega)] at hi
      rw [List.getElem?_map] at hi
      cases hx : (sortMembers hosts
          (rootIdx hosts))[i - ((folderNames hosts).flatMap (folderBlock hosts)).length]? with
      | none => rw [hx] at hi; exact Option.noConfusion hi
      | some k2 => rw [hx] at hi; simp at hi
    have hjGE : ¬ j < ((folderNames hosts).flatMap (folderBlock hosts)).length := by
      intro hlt
      rw [rebuild_tree_eq, List.getElem?_append, if_pos hlt] at hj
      have hmem := List.getElem?_mem hj
      rcases List.mem_flatMap.mp hmem with ⟨f0, _, hmemB⟩
      rcases List.mem_cons.mp hmemB with heq | hmemM
      · exact absurd heq (by simp)
      · rcases List.mem_map.mp hmemM with ⟨k2, hk2, heq2⟩
        injection heq2 with hkk
        subst hkk
        rw [sortMembers] at hk2
        rcases mem_visibleFolderIdx.mp ((mem_stableSort _ _ _).mp hk2) with ⟨h2, hh2, _, hf2⟩
        rw [hk] at hh2
        injection hh2 with hh2
        subst hh2
        rw [hfol] at hf2
        exact Option.noConfusion hf2
    omega
  · refine ⟨(folderNames hosts).flatMap (folderBlock hosts),
      sortMembers hosts (rootIdx hosts), rebuild_tree_eq hosts, ?_, ?_, ?_⟩
    · rw [sortMembers]
      exact pairwise_stableSort _ (fun a b c hab hbc => dispLe_trans hosts a b c hab hbc)
        (dispLe_total hosts) _
    · intro k
      rw [sortMembers]
      exact (mem_stableSort _ _ _).trans mem_rootIdx
    · intro k hkF
      rcases List.mem_flatMap.mp hkF with ⟨f0, _, hmem⟩
      rcases List.mem_cons.mp hmem with heq | hmem2
      · exact absurd heq (by simp)
      · rcases List.mem_map.mp hmem2 with ⟨k2, hk2, heq2⟩
        injection heq2 with hkk
        subst hkk
        rw [sortMembers] at hk2
        rcases mem_visibleFolderIdx.mp ((mem_stableSort _ _ _).mp hk2) with ⟨h, hh, _, hf⟩
        exact ⟨h, f0, hh, hf⟩

/-- C3 witness: the folder row 0 of the scenario tree is expanded, its
members [0, 1] are display-name-sorted, and rows 1–2 are exactly those
members. -/
theorem C3_tree_empty_query_witness :
    true = true ∧
    List.Pairwise (fun a b => dispLe demoHosts a b = true) [0, 1] ∧
    List.drop (0+1) (rebuild_tree demoHosts) =
      ([0, 1] : List Nat).map TreeItem.host ++
        List.drop (0+1+([0, 1] : List Nat).length) (rebuild_tree demoHosts) :=
  ⟨((C3_tree_empty_query demoHosts).2.2.2.2.1 0 (str "prod") true [0, 1] (by decide)).1,
   ((C3_tree_empty_query demoHosts).2.2.2.2.1 0 (str "prod") true [0, 1] (by decide)).2.1,
   ((C3_tree_empty_query demoHosts).2.2.2.2.1 0 (str "prod") true [0, 1] (by decide)).2.2.2⟩

/-- C7 (amended): `rebuild_tree` takes only the host list — per-folder
expand flags are not consulted, and every Folder item of a rebuilt tree is
created expanded, so a collapsed flag does not survive a rebuild. -/
theorem C7_rebuild_always_expanded (hosts : List SshHost) :
    ∀ it ∈ rebuild_tree hosts, expandedFlag it = true := by
  intro it hit
  rw [rebuild_tree_eq] at hit
  rcases List.mem_append.mp hit with h | h
  · rcases List.mem_flatMap.mp h with ⟨f0, _, hmem⟩
    rcases List.mem_cons.mp hmem with rfl | hmem2
    · rfl
    · rcases List.mem_map.mp hmem2 with ⟨k, _, rfl⟩
      rfl
  · rcases List.mem_map.mp h with ⟨k, _, rfl⟩
    rfl

/-- C7 witness: the folder item of the one-host tree, shown expanded. -/
theorem C7_rebuild_always_expanded_witness :
    expandedFlag (TreeItem.folder (str "f") true [0]) = true :=
  C7_rebuild_always_expanded cHosts7 (TreeItem.folder (str "f") true [0]) (by decide)

/-- C7 counterexample: folder "f" is present both before and after a
rebuild, collapsed before (after a toggle) and expanded after — the flag
is not persisted across rebuilds. -/
theorem C7_flag_not_persisted_counterexample :
    toggle_folder_expanded cHosts7 (rebuild_tree cHosts7) 0 =
      [TreeItem.folder (str "f") false [0]] ∧
    rebuild_tree cHosts7 =
      [TreeItem.folder (str "f") true [0], TreeItem.host 0] := by
  decide

lemma getElem?_append_cons {α : Type _} (A : List α) (x : α) (B : List α) :
    (A ++ x :: B)[A.length]? = some x := by
  rw [List.getElem?_append, if_neg (lt_irrefl _)]
  simp

lemma set_append_cons {α : Type _} (A : List α) (x v : α) (B : List α) :
    (A ++ x :: B).set A.length v = A ++ v :: B := by
  induction A with
  | nil => rfl
  | cons a A2 ih =>
    rw [List.cons_append, List.length_cons, List.set_cons_succ, ih, List.cons_append]

lemma drop_append_cons_one {α : Type _} (A : List α) (x : α) (B : List α) :
    List.drop (A.length + 1) (A ++ x :: B) = B := by
  have h := @List.drop_append _ A (x :: B) 1
  simpa using h

lemma drop_append_cons_add {α : Type _} (A : List α) (x : α) (B : List α) (k : Nat) :
    List.drop (A.length + 1 + k) (A ++ x :: B) = List.drop k B := by
  have h := @List.drop_append _ A (x :: B) (1 + k)
  rw [show A.length + 1 + k = A.length + (1 + k) by omega, h,
    show 1 + k = k + 1 by omega, List.drop_succ_cons]

lemma take_append_cons_one {α : Type _} (A : List α) (x : α) (B : List α) :
    List.take (A.length + 1) (A ++ x :: B) = A ++ [x] := by
  have h := @List.take_append _ A (x :: B) 1
  simpa using h

lemma insertListAt_append_cons (A : List TreeItem) (v : TreeItem) (B S : List TreeItem) :
    insertListAt (A ++ v :: B) (A.length + 1) S = A ++ v :: (S ++ B) := by
  rw [insertListAt, take_append_cons_one, drop_append_cons_one, List.append_assoc]
  simp

lemma eraseIdx_append_cons {α : Type _} (A : List α) (x : α) (B : List α) :
    (A ++ x :: B).eraseIdx A.length = A ++ B := by
  induction A with
  | nil => rfl
  | cons a A2 ih =>
    rw [List.cons_append, List.length_cons, List.eraseIdx_cons_succ, ih, List.cons_append]

lemma removeN_splice (P : List TreeItem) (X B : List TreeItem) :
    removeN (P ++ X ++ B) P.length X.length = P ++ B := by
  induction X generalizing B with
  | nil => simp [removeN]
  | cons x X2 ih =>
    rw [List.length_cons, removeN, if_pos (by simp)]
    rw [List.append_assoc, List.cons_append, eraseIdx_append_cons, ← List.append_assoc]
    exact ih B

lemma removeN_append_cons (A : List TreeItem) (v : TreeItem) (S B : List TreeItem) :
    removeN (A ++ v :: (S ++ B)) (A.length + 1) S.length = A ++ v :: B := by
  have h := removeN_splice (A ++ [v]) S B
  simpa [List.append_assoc] using h

lemma exists_decomp {α : Type _} (l : List α) (i : Nat) (x : α)
    (h : l[i]? = some x) : ∃ A B, l = A ++ x :: B ∧ A.length = i := by
  rcases List.getElem?_eq_some.mp h with ⟨hlt, hget⟩
  refine ⟨List.take i l, List.drop (i+1) l, ?_, List.length_take_of_le (le_of_lt hlt)⟩
  conv_lhs => rw [← List.take_append_drop i l]
  rw [List.drop_eq_getElem_cons hlt, hget]

/-- The three enumerated operations and `Discard` have been defined from
the source above; reachability of a tree state enters C5 through the row
invariant that in any tree produced by a rebuild (second conjunct), and
preserved by the toggles themselves, an expanded folder row is
immediately followed by exactly its display-name-sorted member rows. -/
theorem C5_toggle_involution (hosts : List SshHost) (tree : List TreeItem)
    (fi : Nat) (name : Str) (exp : Bool) (ch : List Nat)
    (hfi : tree[fi]? = some (TreeItem.folder name exp ch))
    (hexp : exp = true → List.drop (fi+1) tree =
      ((sortMembers hosts ch).map TreeItem.host) ++
        List.drop (fi+1+ch.length) tree) :
    toggle_folder_expanded hosts (toggle_folder_expanded hosts tree fi) fi = tree ∧
    (∀ (hs : List SshHost) (i : Nat) (f : Str) (e : Bool) (m : List Nat),
      (rebuild_tree hs)[i]? = some (TreeItem.folder f e m) →
      List.drop (i+1) (rebuild_tree hs) =
        ((sortMembers hs m).map TreeItem.host) ++
          List.drop (i+1+m.length) (rebuild_tree hs)) := by
  constructor
  · have hS : ((sortMembers hosts ch).map TreeItem.host).length = ch.length := by
      rw [List.length_map, sortMembers, length_stableSort]
    obtain ⟨A, D, hdec, hlen⟩ := exists_decomp tree fi _ hfi
    subst hlen
    cases exp with
    | false =>
      subst hdec
      have h1 : toggle_folder_expanded hosts
          (A ++ TreeItem.folder name false ch :: D) A.length =
          A ++ TreeItem.folder name true ch ::
            ((sortMembers hosts ch).map TreeItem.host ++ D) := by
        simp only [toggle_folder_expanded, getElem?_append_cons]
        rw [if_neg (by simp), set_append_cons, insertListAt_append_cons]
      have h2 : toggle_folder_expanded hosts
          (A ++ TreeItem.folder name true ch ::
            ((sortMembers hosts ch).map TreeItem.host ++ D)) A.length =
          A ++ TreeItem.folder name false ch :: D := by
        simp only [toggle_folder_expanded, getElem?_append_cons]
        rw [if_pos trivial, set_append_cons]
        have hrem := removeN_append_cons A (TreeItem.folder name false ch)
          ((sortMembers hosts ch).map TreeItem.host) D
        rw [hS] at hrem
        exact hrem
      rw [h1, h2]
    | true =>
      have hD : List.drop (A.length + 1) tree =
          ((sortMembers hosts ch).map TreeItem.host) ++
            List.drop (A.length + 1 + ch.length) tree := hexp rfl
      rw [hdec, drop_append_cons_one, drop_append_cons_add] at hD
      subst hdec
      obtain ⟨E, hE⟩ : ∃ E, D = (sortMembers hosts ch).map TreeItem.host ++ E :=
        ⟨List.drop ch.length D, hD⟩
      subst hE
      have h1 : toggle_folder_expanded hosts
          (A ++ TreeItem.folder name true ch ::
            ((sortMembers hosts ch).map TreeItem.host ++ E)) A.length =
          A ++ TreeItem.folder name false ch :: E := by
        simp only [toggle_folder_expanded, getElem?_append_cons]
        rw [if_pos trivial, set_append_cons]
        have hrem := removeN_append_cons A (TreeItem.folder name false ch)
          ((sortMembers hosts ch).map TreeItem.host) E
        rw [hS] at hrem
        exact hrem
      have h2 : toggle_folder_expanded hosts
          (A ++ TreeItem.folder name false ch :: E) A.length =
          A ++ TreeItem.folder name true ch ::
            ((sortMembers hosts ch).map TreeItem.host ++ E) := by
        simp only [toggle_folder_expanded, getElem?_append_cons]
        rw [if_neg (by simp), set_append_cons, insertListAt_append_cons]
      rw [h1, h2]
  · intro hs i f e m hget
    rw [rebuild_tree_eq] at hget
    obtain ⟨he, hm, hdrop⟩ := flatMap_blocks_getElem_folder hs (folderNames hs)
      _ (root_part_hosts hs) i f e m hget
    have hsorted : List.Pairwise (fun a b => dispLe hs a b = true) m := by
      rw [hm, sortMembers]
      exact pairwise_stableSort _ (fun a b c hab hbc => dispLe_trans hs a b c hab hbc)
        (dispLe_total hs) _
    have hid : sortMembers hs m = m := stableSort_of_sorted hsorted
    rw [rebuild_tree_eq, hid]
    exact hdrop

/-- C5 witness: on the scenario tree, collapsing and re-expanding folder
row 0 restores the exact item sequence. -/
theorem C5_toggle_involution_witness :
    toggle_folder_expanded demoHosts
      (toggle_folder_expanded demoHosts (rebuild_tree demoHosts) 0) 0 =
      rebuild_tree demoHosts :=
  (C5_toggle_involution demoHosts (rebuild_tree demoHosts) 0 (str "prod") true [0, 1]
    (by decide) (fun _ => by decide)).1

/-- C8 counterexample: a Modified entry whose hosts differ in an
unrecognized option (`foo`) and gain a hostname renders as just the header
and a single `+` HostName line — no line for the differing option and no
`-`/`+` pair for the hostname, contradicting the claim that every
differing field (unrecognized options included) yields a `-`/`+` pair. -/
theorem C8_modified_diff_counterexample :
    generate_diff_lines [ChangeType.modified c8old c8new] =
      [str "~ Host a", str "+   HostName h", []] ∧
    c8old.other_options ≠ c8new.other_options ∧
    c8old.hostname ≠ c8new.hostname := by
  decide

/-- C8 (amended): a Modified entry emits exactly one `~ Host <old name>`
header, then only the differing fields among folder, display-name,
description, visible, HostName, User, Port and IdentityFile, in that
order, each contributing a `-` line only when its old value is present
and a `+` line only when its new value is present, then a blank line;
equal fields produce no lines, and unrecognized options are never
compared nor rendered. -/
theorem C8_modified_diff_fields (old nw : SshHost) :
    (changeLines (ChangeType.modified old nw) =
      (str "~ Host " ++ old.name) :: (fieldDiffLines old nw ++ [[]])) ∧
    (changeLines (ChangeType.modified old nw) =
      changeLines (ChangeType.modified { old with other_options := [] }
        { nw with other_options := [] })) ∧
    (changeLines (ChangeType.modified old old) = [str "~ Host " ++ old.name, []]) := by
  refine ⟨?_, rfl, ?_⟩
  · simp only [changeLines, modifiedLines, fieldDiffLines, pairDiff, optLine,
      List.append_assoc, List.cons_append, List.nil_append]
  · simp [changeLines, modifiedLines]

lemma trimLeft_ws_prefix (w s : Str) (hw : ∀ c ∈ w, c.isWhitespace = true) :
    trimLeft (w ++ s) = trimLeft s := by
  induction w with
  | nil => rfl
  | cons c t ih =>
    have hc : c.isWhitespace = true := hw c (List.mem_cons_self c t)
    rw [List.cons_append]
    show List.dropWhile Char.isWhitespace (c :: (t ++ s)) = trimLeft s
    rw [List.dropWhile_cons, if_pos hc]
    exact ih fun d hd => hw d (List.mem_cons_of_mem c hd)

lemma trimLeft_append_of (p v : Str) (hp : trimLeft p = p) (hne : p ≠ []) :
    trimLeft (p ++ v) = p ++ v := by
  cases p with
  | nil => exact absurd rfl hne
  | cons c t =>
    have hc : c.isWhitespace = false := by
      by_contra hcc
      rw [Bool.not_eq_false] at hcc
      have hstep : trimLeft (c :: t) = trimLeft t := by
        show List.dropWhile Char.isWhitespace (c :: t) = trimLeft t
        rw [List.dropWhile_cons, if_pos hcc]
        rfl
      rw [hstep] at hp
      have hlen : (List.dropWhile Char.isWhitespace t).length ≤ t.length :=
        (List.dropWhile_sublist Char.isWhitespace).length_le
      have hlen2 := congrArg List.length hp
      simp only [trimLeft] at hlen2
      simp only [List.length_cons] at hlen2
      omega
    rw [List.cons_append]
    show List.dropWhile Char.isWhitespace (c :: (t ++ v)) = (c :: t) ++ v
    rw [List.dropWhile_cons, if_neg (by simp [hc]), List.cons_append]

lemma trimRight_append_of (a v : Str) (hv : trimRight v = v) (hne : v ≠ []) :
    trimRight (a ++ v) = a ++ v := by
  induction a with
  | nil => simpa using hv
  | cons c t ih =>
    rw [List.cons_append, trimRight, ih]
    cases htv : t ++ v with
    | nil => exact absurd (List.append_eq_nil.mp htv).2 hne
    | cons r rs => simp

lemma trimStr_of_good {s : Str} (h : goodStr s) : trimStr s = s := by
  rw [trimStr, h.2.1, h.2.2.1]

lemma trimStr_append_good (p v : Str) (hp : trimLeft p = p) (hne : p ≠ [])
    (hv : goodStr v) : trimStr (p ++ v) = p ++ v := by
  rw [trimStr, trimLeft_append_of p v hp hne, trimRight_append_of p v hv.2.2.1 hv.1]

lemma trimStr_ws_concrete_good (w p v : Str) (hw : ∀ c ∈ w, c.isWhitespace = true)
    (hp : trimLeft p = p) (hne : p ≠ []) (hv : goodStr v) :
    trimStr ((w ++ p) ++ v) = p ++ v := by
  rw [List.append_assoc, trimStr, trimLeft_ws_prefix w _ hw,
    trimLeft_append_of p v hp hne, trimRight_append_of p v hv.2.2.1 hv.1]

lemma trimStr_ws_good (w v : Str) (hw : ∀ c ∈ w, c.isWhitespace = true)
    (hv : goodStr v) : trimStr (w ++ v) = v := by
  rw [trimStr, trimLeft_ws_prefix w v hw, hv.2.1, hv.2.2.1]

lemma splitFirstWs_append (p : Str) (hp : ∀ c ∈ p, c.isWhitespace = false)
    (w : Char) (hw : w.isWhitespace = true) (rest : Str) :
    splitFirstWs (p ++ w :: rest) = (p, some rest) := by
  induction p with
  | nil => simp [splitFirstWs, hw]
  | cons c t ih =>
    have hc := hp c (List.mem_cons_self c t)
    rw [List.cons_append, splitFirstWs, ih fun d hd => hp d (List.mem_cons_of_mem c hd)]
    simp [hc]

lemma splitFirstColon_append (p : Str) (hp : ':' ∉ p) (rest : Str) :
    splitFirstColon (p ++ ':' :: rest) = some (p, rest) := by
  induction p with
  | nil => simp [splitFirstColon]
  | cons c t ih =>
    have hc : ¬ c = ':' := by
      intro hcc
      exact hp (by rw [← hcc]; exact List.mem_cons_self c t)
    have hT : ':' ∉ t := fun hm => hp (List.mem_cons_of_mem c hm)
    rw [List.cons_append, splitFirstColon, ih hT]
    simp [hc]

lemma isPrefixOf_append_self (p v : Str) : p.isPrefixOf (p ++ v) = true := by
  induction p with
  | nil => simp [List.isPrefixOf]
  | cons c t ih => simp [List.isPrefixOf, ih]

lemma parseLine_blank (st : ParseState) : parseLine st [] = st := rfl

lemma parseLine_metaVisible (st : ParseState) :
    parseLine st (str "# @visible: false") =
      { st with pending := assocInsert (str "visible") (str "false") st.pending } := rfl

lemma parseLine_metaFolder (st : ParseState) (v : Str) (hv : goodStr v) :
    parseLine st (str "# @folder: " ++ v) =
      { st with pending := assocInsert (str "folder") v st.pending } := by
  have h1 : trimStr (str "# @folder: " ++ v) = str "# @folder: " ++ v :=
    trimStr_append_good _ v (by decide) (by decide) hv
  have h2 : str "# @folder: " ++ v = str "# @" ++ (str "folder: " ++ v) := rfl
  have h3 : trimStr (str "folder: " ++ v) = str "folder: " ++ v :=
    trimStr_append_good _ v (by decide) (by decide) hv
  have h4 : str "folder: " ++ v = str "folder" ++ ':' :: (str " " ++ v) := rfl
  have h5 : splitFirstColon (str "folder: " ++ v) = some (str "folder", str " " ++ v) := by
    rw [h4]
    exact splitFirstColon_append _ (by decide) _
  have h6 : trimStr (str " " ++ v) = v := trimStr_ws_good _ v (by decide) hv
  have hEmpty : (str "# @folder: " ++ v).isEmpty = false := rfl
  have hHead : (str "# @folder: " ++ v).head? = some '#' := rfl
  simp only [parseLine, h1]
  rw [if_neg (by rw [hEmpty]; exact Bool.false_ne_true)]
  rw [if_pos hHead]
  rw [if_pos (by rw [h2]; exact isPrefixOf_append_self _ _)]
  have h7 : (str "# @folder: " ++ v).drop 3 = str "folder: " ++ v := rfl
  rw [h7, h3, h5]
  have h8 : trimStr (str "folder") = str "folder" := by decide
  simp [h8, h6]

lemma parseLine_metaName (st : ParseState) (v : Str) (hv : goodStr v) :
    parseLine st (str "# @name: " ++ v) =
      { st with pending := assocInsert (str "name") v st.pending } := by
  have h1 : trimStr (str "# @name: " ++ v) = str "# @name: " ++ v :=
    trimStr_append_good _ v (by decide) (by decide) hv
  have h2 : str "# @name: " ++ v = str "# @" ++ (str "name: " ++ v) := rfl
  have h3 : trimStr (str "name: " ++ v) = str "name: " ++ v :=
    trimStr_append_good _ v (by decide) (by decide) hv
  have h4 : str "name: " ++ v = str "name" ++ ':' :: (str " " ++ v) := rfl
  have h5 : splitFirstColon (str "name: " ++ v) = some (str "name", str " " ++ v) := by
    rw [h4]
    exact splitFirstColon_append _ (by decide) _
  have h6 : trimStr (str " " ++ v) = v := trimStr_ws_good _ v (by decide) hv
  have hEmpty : (str "# @name: " ++ v).isEmpty = false := rfl
  have hHead : (str "# @name: " ++ v).head? = some '#' := rfl
  simp only [parseLine, h1]
  rw [if_neg (by rw [hEmpty]; exact Bool.false_ne_true)]
  rw [if_pos hHead]
  rw [if_pos (by rw [h2]; exact isPrefixOf_append_self _ _)]
  have h7 : (str "# @name: " ++ v).drop 3 = str "name: " ++ v := rfl
  rw [h7, h3, h5]
  have h8 : trimStr (str "name") = str "name" := by decide
  simp [h8, h6]

lemma parseLine_metaDescription (st : ParseState) (v : Str) (hv : goodStr v) :
    parseLine st (str "# @description: " ++ v) =
      { st with pending := assocInsert (str "description") v st.pending } := by
  have h1 : trimStr (str "# @description: " ++ v) = str "# @description: " ++ v :=
    trimStr_append_good _ v (by decide) (by decide) hv
  have h2 : str "# @description: " ++ v = str "# @" ++ (str "description: " ++ v) := rfl
  have h3 : trimStr (str "description: " ++ v) = str "description: " ++ v :=
    trimStr_append_good _ v (by decide) (by decide) hv
  have h4 : str "description: " ++ v = str "description" ++ ':' :: (str " " ++ v) := rfl
  have h5 : splitFirstColon (str "description: " ++ v) =
      some (str "description", str " " ++ v) := by
    rw [h4]
    exact splitFirstColon_append _ (by decide) _
  have h6 : trimStr (str " " ++ v) = v := trimStr_ws_good _ v (by decide) hv
  have hEmpty : (str "# @description: " ++ v).isEmpty = false := rfl
  have hHead : (str "# @description: " ++ v).head? = some '#' := rfl
  simp only [parseLine, h1]
  rw [if_neg (by rw [hEmpty]; exact Bool.false_ne_true)]
  rw [if_pos hHead]
  rw [if_pos (by rw [h2]; exact isPrefixOf_append_self _ _)]
  have h7 : (str "# @description: " ++ v).drop 3 = str "description: " ++ v := rfl
  rw [h7, h3, h5]
  have h8 : trimStr (str "description") = str "description" := by decide
  simp [h8, h6]

lemma parseLine_host (st : ParseState) (nm : Str) (hnm : goodStr nm) :
    parseLine st (str "Host " ++ nm) =
      { hosts := st.hosts ++ st.current.toList,
        current := some (applyMeta (SshHost.new nm) st.pending),
        pending := [] } := by
  have h1 : trimStr (str "Host " ++ nm) = str "Host " ++ nm :=
    trimStr_append_good _ nm (by decide) (by decide) hnm
  have hEmpty : (str "Host " ++ nm).isEmpty = false := rfl
  have hHead : (str "Host " ++ nm).head? = some 'H' := rfl
  have h2 : str "Host " ++ nm = str "Host" ++ ' ' :: nm := rfl
  have h3 : splitFirstWs (str "Host " ++ nm) = (str "Host", some nm) := by
    rw [h2]
    exact splitFirstWs_append _ (by decide) ' ' (by decide) nm
  have h4 : toLowerStr (str "Host") = str "host" := by decide
  simp only [parseLine, h1]
  rw [if_neg (by rw [hEmpty]; exact Bool.false_ne_true)]
  rw [if_neg (by rw [hHead]; decide)]
  rw [h3]
  simp [h4, trimStr_of_good hnm]

lemma parseLine_fieldHostname (st : ParseState) (v : Str) (hv : goodStr v) :
    parseLine st (str "    HostName " ++ v) =
      { st with current := st.current.map fun h => { h with hostname := some v } } := by
  have h0 : str "    HostName " ++ v = (str "    " ++ str "HostName ") ++ v := rfl
  have h1 : trimStr (str "    HostName " ++ v) = str "HostName " ++ v := by
    rw [h0]
    exact trimStr_ws_concrete_good _ _ v (by decide) (by decide) (by decide) hv
  have hEmpty : (str "HostName " ++ v).isEmpty = false := rfl
  have hHead : (str "HostName " ++ v).head? = some 'H' := rfl
  have h2 : str "HostName " ++ v = str "HostName" ++ ' ' :: v := rfl
  have h3 : splitFirstWs (str "HostName " ++ v) = (str "HostName", some v) := by
    rw [h2]
    exact splitFirstWs_append _ (by decide) ' ' (by decide) v
  have h4 : toLowerStr (str "HostName") = str "hostname" := by decide
  have h5 : v.isEmpty = false := by
    cases v with
    | nil => exact absurd rfl hv.1
    | cons a b => rfl
  simp only [parseLine, h1]
  rw [if_neg (by rw [hEmpty]; exact Bool.false_ne_true)]
  rw [if_neg (by rw [hHead]; decide)]
  rw [h3]
  simp [h4, trimStr_of_good hv, h5,
    show ¬ (str "hostname" = str "host") from by decide]

lemma parseLine_fieldUser (st : ParseState) (v : Str) (hv : goodStr v) :
    parseLine st (str "    User " ++ v) =
      { st with current := st.current.map fun h => { h with user := some v } } := by
  have h0 : str "    User " ++ v = (str "    " ++ str "User ") ++ v := rfl
  have h1 : trimStr (str "    User " ++ v) = str "User " ++ v := by
    rw [h0]
    exact trimStr_ws_concrete_good _ _ v (by decide) (by decide) (by decide) hv
  have hEmpty : (str "User " ++ v).isEmpty = false := rfl
  have hHead : (str "User " ++ v).head? = some 'U' := rfl
  have h2 : str "User " ++ v = str "User" ++ ' ' :: v := rfl
  have h3 : splitFirstWs (str "User " ++ v) = (str "User", some v) := by
    rw [h2]
    exact splitFirstWs_append _ (by decide) ' ' (by decide) v
  have h4 : toLowerStr (str "User") = str "user" := by decide
  have h5 : v.isEmpty = false := by
    cases v with
    | nil => exact absurd rfl hv.1
    | cons a b => rfl
  simp only [parseLine, h1]
  rw [if_neg (by rw [hEmpty]; exact Bool.false_ne_true)]
  rw [if_neg (by rw [hHead]; decide)]
  rw [h3]
  simp [h4, trimStr_of_good hv, h5,
    show ¬ (str "user" = str "host") from by decide,
    show ¬ (str "user" = str "hostname") from by decide]

lemma parseLine_fieldPort (st : ParseState) (v : Str) (hv : goodStr v) :
    parseLine st (str "    Port " ++ v) =
      { st with current := st.current.map fun h => { h with port := some v } } := by
  have h0 : str "    Port " ++ v = (str "    " ++ str "Port ") ++ v := rfl
  have h1 : trimStr (str "    Port " ++ v) = str "Port " ++ v := by
    rw [h0]
    exact trimStr_ws_concrete_good _ _ v (by decide) (by decide) (by decide) hv
  have hEmpty : (str "Port " ++ v).isEmpty = false := rfl
  have hHead : (str "Port " ++ v).head? = some 'P' := rfl
  have h2 : str "Port " ++ v = str "Port" ++ ' ' :: v := rfl
  have h3 : splitFirstWs (str "Port " ++ v) = (str "Port", some v) := by
    rw [h2]
    exact splitFirstWs_append _ (by decide) ' ' (by decide) v
  have h4 : toLowerStr (str "Port") = str "port" := by decide
  have h5 : v.isEmpty = false := by
    cases v with
    | nil => exact absurd rfl hv.1
    | cons a b => rfl
  simp only [parseLine, h1]
  rw [if_neg (by rw [hEmpty]; exact Bool.false_ne_true)]
  rw [if_neg (by rw [hHead]; decide)]
  rw [h3]
  simp [h4, trimStr_of_good hv, h5,
    show ¬ (str "port" = str "host") from by decide,
    show ¬ (str "port" = str "hostname") from by decide,
    show ¬ (str "port" = str "user") from by decide]

lemma parseLine_fieldIdentityFile (st : ParseState) (v : Str) (hv : goodStr v) :
    parseLine st (str "    IdentityFile " ++ v) =
      { st with current := st.current.map fun h =>
          { h with identity_file := some v } } := by
  have h0 : str "    IdentityFile " ++ v = (str "    " ++ str "IdentityFile ") ++ v := rfl
  have h1 : trimStr (str "    IdentityFile " ++ v) = str "IdentityFile " ++ v := by
    rw [h0]
    exact trimStr_ws_concrete_good _ _ v (by decide) (by decide) (by decide) hv
  have hEmpty : (str "IdentityFile " ++ v).isEmpty = false := rfl
  have hHead : (str "IdentityFile " ++ v).head? = some 'I' := rfl
  have h2 : str "IdentityFile " ++ v = str "IdentityFile" ++ ' ' :: v := rfl
  have h3 : splitFirstWs (str "IdentityFile " ++ v) = (str "IdentityFile", some v) := by
    rw [h2]
    exact splitFirstWs_append _ (by decide) ' ' (by decide) v
  have h4 : toLowerStr (str "IdentityFile") = str "identityfile" := by decide
  have h5 : v.isEmpty = false := by
    cases v with
    | nil => exact absurd rfl hv.1
    | cons a b => rfl
  simp only [parseLine, h1]
  rw [if_neg (by rw [hEmpty]; exact Bool.false_ne_true)]
  rw [if_neg (by rw [hHead]; decide)]
  rw [h3]
  simp [h4, trimStr_of_good hv, h5,
    show ¬ (str "identityfile" = str "host") from by decide,
    show ¬ (str "identityfile" = str "hostname") from by decide,
    show ¬ (str "identityfile" = str "user") from by decide,
    show ¬ (str "identityfile" = str "port") from by decide]

lemma foldl_metaAndHost (h : SshHost) (hg : goodHost h) (acc : List SshHost)
    (cur : Option SshHost) :
    List.foldl parseLine ⟨acc, cur, []⟩ (metaLines h ++ [str "Host " ++ h.name]) =
      ⟨acc ++ cur.toList, some (withMetaHost h), []⟩ := by
  obtain ⟨hname, hopts, hhn, hus, hpt, hif, hfo, hdn, hde⟩ := hg
  rcases hfol : h.folder with _ | vf <;>
    rcases hdis : h.display_name with _ | vd <;>
      rcases hdes : h.description with _ | ve <;>
        cases hvis : h.visible <;>
          simp only [hfol, hdis, hdes, goodOpt] at hfo hdn hde <;>
            simp [metaLines, withMetaHost, hfol, hdis, hdes, hvis,
              List.foldl_cons, List.foldl_nil,
              parseLine_metaFolder, parseLine_metaName, parseLine_metaDescription,
              parseLine_metaVisible, parseLine_host, hfo, hdn, hde, hname,
              applyMeta, assocInsert, assocLookup, SshHost.new,
              show ¬ (str "folder" = str "name") from by decide,
              show ¬ (str "folder" = str "description") from by decide,
              show ¬ (str "folder" = str "visible") from by decide,
              show ¬ (str "name" = str "folder") from by decide,
              show ¬ (str "name" = str "description") from by decide,
              show ¬ (str "name" = str "visible") from by decide,
              show ¬ (str "description" = str "folder") from by decide,
              show ¬ (str "description" = str "name") from by decide,
              show ¬ (str "description" = str "visible") from by decide,
              show ¬ (str "visible" = str "folder") from by decide,
              show ¬ (str "visible" = str "name") from by decide,
              show ¬ (str "visible" = str "description") from by decide,
              show (decide (¬ toLowerStr (str "false") = str "false")) = false from by decide]

lemma foldl_fieldLines (h : SshHost) (hg : goodHost h) (acc : List SshHost) :
    List.foldl parseLine ⟨acc, some (withMetaHost h), []⟩ (fieldLines h) =
      ⟨acc, some { withMetaHost h with
        hostname := h.hostname
        user := h.user
        port := h.port
        identity_file := h.identity_file }, []⟩ := by
  obtain ⟨hname, hopts, hhn, hus, hpt, hif, hfo, hdn, hde⟩ := hg
  rcases hhn2 : h.hostname with _ | v1 <;>
    rcases hus2 : h.user with _ | v2 <;>
      rcases hpt2 : h.port with _ | v3 <;>
        rcases hif2 : h.identity_file with _ | v4 <;>
          simp only [hhn2, hus2, hpt2, hif2, goodOpt] at hhn hus hpt hif <;>
            simp [fieldLines, withMetaHost, hhn2, hus2, hpt2, hif2,
              List.foldl_cons, List.foldl_nil, SshHost.new,
              parseLine_fieldHostname, parseLine_fieldUser,
              parseLine_fieldPort, parseLine_fieldIdentityFile,
              hhn, hus, hpt, hif]

lemma full_eq_self (h : SshHost) (hopts : h.other_options = []) :
    ({ withMetaHost h with
        hostname := h.hostname
        user := h.user
        port := h.port
        identity_file := h.identity_file } : SshHost) = h := by
  cases h with
  | mk nm hn us pt idf oo fo dn de vis =>
    simp only [withMetaHost, SshHost.new] at hopts ⊢
    simp [hopts]

lemma foldl_block (h : SshHost) (hg : goodHost h) (acc : List SshHost)
    (cur : Option SshHost) :
    List.foldl parseLine ⟨acc, cur, []⟩ ((hostLines h ++ [[]])) =
      ⟨acc ++ cur.toList, some h, []⟩ := by
  have hsplit : hostLines h ++ [[]] =
      (metaLines h ++ [str "Host " ++ h.name]) ++ (fieldLines h ++ [[]]) := by
    simp [hostLines, hg.2.1, List.append_assoc]
  rw [hsplit, List.foldl_append, foldl_metaAndHost h hg acc cur,
    List.foldl_append, foldl_fieldLines h hg (acc ++ cur.toList),
    full_eq_self h hg.2.1]
  simp [List.foldl_cons, List.foldl_nil, parseLine_blank]

lemma splitOnChar_append_cons (c : Char) (l rest : Str) (hl : c ∉ l) :
    splitOnChar c (l ++ c :: rest) = l :: splitOnChar c rest := by
  induction l with
  | nil => simp [splitOnChar]
  | cons a t ih =>
    have ha : ¬ a = c := fun hac => hl (by rw [← hac]; exact List.mem_cons_self a t)
    rw [List.cons_append, splitOnChar, ih fun hm => hl (List.mem_cons_of_mem a hm)]
    simp [ha]

lemma splitOnChar_flat (c : Char) (L : List Str) (hL : ∀ l ∈ L, c ∉ l) :
    splitOnChar c (L.flatMap fun l => l ++ [c]) = L ++ [[]] := by
  induction L with
  | nil => rfl
  | cons l t ih =>
    rw [List.flatMap_cons, List.append_assoc, List.singleton_append,
      splitOnChar_append_cons c l _ (hL l (List.mem_cons_self l t)),
      ih fun x hx => hL x (List.mem_cons_of_mem l hx)]
    rfl

lemma mem_optSegment {o : Option Str} {pre l : Str}
    (hl : l ∈ (match o with | some v => [pre ++ v] | none => ([] : List Str))) :
    ∃ v, o = some v ∧ l = pre ++ v := by
  cases o with
  | none => simp at hl
  | some v =>
    simp at hl
    exact ⟨v, rfl, hl⟩

lemma no_newline_append {p v : Str} (hp : '\n' ∉ p) (hv : '\n' ∉ v) :
    '\n' ∉ p ++ v := by
  intro hm
  rcases List.mem_append.mp hm with hm | hm
  · exact hp hm
  · exact hv hm

lemma hostLines_no_newline (h : SshHost) (hg : goodHost h) :
    ∀ l ∈ hostLines h ++ [[]], '\n' ∉ l := by
  obtain ⟨hname, hopts, hhn, hus, hpt, hif, hfo, hdn, hde⟩ := hg
  intro l hl
  rw [hostLines, hopts] at hl
  simp only [List.map_nil, List.append_nil] at hl
  rcases List.mem_append.mp hl with hl | hl
  case inr => simp only [List.mem_singleton] at hl; subst hl; simp
  rcases List.mem_append.mp hl with hl | hl
  case inr =>
    -- field lines
    rw [fieldLines] at hl
    rcases List.mem_append.mp hl with hl | hl
    case inr =>
      obtain ⟨v, hv, rfl⟩ := mem_optSegment hl
      rw [hv] at hif
      exact no_newline_append (by decide) hif.2.2.2
    rcases List.mem_append.mp hl with hl | hl
    case inr =>
      obtain ⟨v, hv, rfl⟩ := mem_optSegment hl
      rw [hv] at hpt
      exact no_newline_append (by decide) hpt.2.2.2
    rcases List.mem_append.mp hl with hl | hl
    case inr =>
      obtain ⟨v, hv, rfl⟩ := mem_optSegment hl
      rw [hv] at hus
      exact no_newline_append (by decide) hus.2.2.2
    case inl =>
      obtain ⟨v, hv, rfl⟩ := mem_optSegment hl
      rw [hv] at hhn
      exact no_newline_append (by decide) hhn.2.2.2
  rcases List.mem_append.mp hl with hl | hl
  case inr =>
    -- the Host header line
    simp only [List.mem_singleton] at hl
    subst hl
    exact no_newline_append (by decide) hname.2.2.2
  -- metadata lines
  rw [metaLines] at hl
  rcases List.mem_append.mp hl with hl | hl
  case inr =>
    cases hv : h.visible with
    | false =>
      rw [hv] at hl
      simp only [if_false, Bool.false_eq_true, List.mem_singleton] at hl
      subst hl
      decide
    | true =>
      rw [hv] at hl
      simp at hl
  rcases List.mem_append.mp hl with hl | hl
  case inr =>
    obtain ⟨v, hv, rfl⟩ := mem_optSegment hl
    rw [hv] at hde
    exact no_newline_append (by decide) hde.2.2.2
  rcases List.mem_append.mp hl with hl | hl
  case inr =>
    obtain ⟨v, hv, rfl⟩ := mem_optSegment hl
    rw [hv] at hdn
    exact no_newline_append (by decide) hdn.2.2.2
  case inl =>
    obtain ⟨v, hv, rfl⟩ := mem_optSegment hl
    rw [hv] at hfo
    exact no_newline_append (by decide) hfo.2.2.2

lemma foldl_blocks (hosts : List SshHost) (hg : ∀ h ∈ hosts, goodHost h) :
    ∀ (acc : List SshHost) (cur : Option SshHost),
    (List.foldl parseLine ⟨acc, cur, []⟩
        (hosts.flatMap fun h => hostLines h ++ [[]])).hosts ++
      (List.foldl parseLine ⟨acc, cur, []⟩
        (hosts.flatMap fun h => hostLines h ++ [[]])).current.toList =
      acc ++ cur.toList ++ hosts := by
  induction hosts with
  | nil =>
    intro acc cur
    simp
  | cons h t ih =>
    intro acc cur
    rw [List.flatMap_cons, List.foldl_append,
      foldl_block h (hg h (List.mem_cons_self h t)) acc cur,
      ih fun x hx => hg x (List.mem_cons_of_mem h hx)]
    simp

/-- C6 (amended): writing a host sequence and re-parsing the written text
reproduces it exactly, provided every host has empty `other_options` (as
all editor-built hosts do) and every present string field is nonempty with
no leading or trailing whitespace and no newline; name, hostname, user,
port, identity_file and the metadata fields folder, display_name,
description and visible all survive. -/
theorem C6_write_parse_roundtrip (hosts : List SshHost)
    (hg : ∀ h ∈ hosts, goodHost h) :
    parse_ssh_config (write_ssh_config hosts) = hosts := by
  have hnl : ∀ l ∈ hosts.flatMap fun h => hostLines h ++ [[]], '\n' ∉ l := by
    intro l hl
    rcases List.mem_flatMap.mp hl with ⟨h, hh, hl2⟩
    exact hostLines_no_newline h (hg h hh) l hl2
  have hlines : splitOnChar '\n' (write_ssh_config hosts) =
      (hosts.flatMap fun h => hostLines h ++ [[]]) ++ [[]] := by
    rw [write_ssh_config, ← List.flatMap_assoc]
    exact splitOnChar_flat '\n' _ hnl
  have hblank : ∀ st : ParseState, List.foldl parseLine st [[]] = st := by
    intro st
    rw [List.foldl_cons, parseLine_blank, List.foldl_nil]
  simp only [parse_ssh_config]
  rw [hlines, List.foldl_append, hblank]
  have hb := foldl_blocks hosts hg [] none
  simpa using hb

/-- C6 witness: a host with every field present (including spaces and a
colon inside values and visible=false) survives the write-then-parse
round trip. -/
theorem C6_write_parse_roundtrip_witness :
    parse_ssh_config (write_ssh_config [w6host]) = [w6host] :=
  C6_write_parse_roundtrip [w6host] (by decide)

/-- C6 counterexample: the editor accepts the name "a " (it trims to a
nonempty string), but the parser trims the written `Host a ` header, so
re-parsing yields the name "a" and the round trip is not the identity on
this editor-producible host sequence. -/
theorem C6_roundtrip_counterexample :
    (trimStr c6buf.name).isEmpty = false ∧
    parse_ssh_config (write_ssh_config [buildHost c6buf]) ≠ [buildHost c6buf] ∧
    parse_ssh_config (write_ssh_config [buildHost c6buf]) =
      [SshHost.new (str "a")] := by
  decide
